import Mathlib

set_option maxRecDepth 8000

/-!
Shallow embedding of the PNGDecoder repository.

Embeds `src/myzlib.py` (zlib/DEFLATE decompressor) and `src/PNGDecoder.py`
(PNG chunk validation and scanline defiltering) as executable Lean
definitions, followed by theorems about them.

Conventions:
* machine bytes are `Nat` values (< 256 where it matters);
* a Python exception (`IndexError`, `raise Exception(...)`, `TypeError`)
  is modelled as `none`;
* unbounded `while` loops take an explicit fuel argument, exhaustion of
  which also yields `none`.
-/

namespace Zlib

/-- State of `myzlib.BitReader`: the buffer `mem`, the byte cursor
`byte_pos`, the partially consumed current byte `byte`, and the number of
bits still unread in it, `bit_pos`. -/
structure BitReader where
  mem : List Nat
  byte_pos : Nat
  byte : Nat
  bit_pos : Nat
deriving DecidableEq, Repr

/-- `BitReader(mem)`: cursor at the start. -/
def BitReader.init (mem : List Nat) : BitReader := ⟨mem, 0, 0, 0⟩

/-- `BitReader.read_byte`: set `bit_pos` to 0, return `mem[byte_pos]` and
advance the byte cursor; `IndexError` (end of buffer) is `none`. -/
def read_byte (r : BitReader) : Option (Nat × BitReader) :=
  match r.mem.get? r.byte_pos with
  | none => none
  | some b => some (b, { r with bit_pos := 0, byte_pos := r.byte_pos + 1 })

/-- `BitReader.read_bit`: refill from `read_byte` when `bit_pos <= 0`
(for a `Nat` counter: `= 0`), then emit the least significant bit of the
current byte and shift it out. -/
def read_bit (r : BitReader) : Option (Nat × BitReader) :=
  if r.bit_pos = 0 then
    match read_byte r with
    | none => none
    | some (b, r1) => some (b % 2, { r1 with byte := b / 2, bit_pos := 7 })
  else
    some (r.byte % 2, { r with byte := r.byte / 2, bit_pos := r.bit_pos - 1 })

/-- Loop of `BitReader.read_bits`: `bits |= read_bit() << i` for the
remaining count of iterations. -/
def read_bitsAux : Nat → BitReader → Nat → Nat → Option (Nat × BitReader)
  | 0, r, acc, _ => some (acc, r)
  | n+1, r, acc, i =>
    match read_bit r with
    | none => none
    | some (b, r1) => read_bitsAux n r1 (acc ||| (b <<< i)) (i+1)

/-- `BitReader.read_bits(N)`. -/
def read_bits (r : BitReader) (N : Nat) : Option (Nat × BitReader) :=
  read_bitsAux N r 0 0

/-- Loop body of `BitReader.read_bytes` as it would iterate:
`out |= read_byte() << (8*i)`. -/
def read_bytesAux : Nat → BitReader → Nat → Nat → Option (Nat × BitReader)
  | 0, r, acc, _ => some (acc, r)
  | n+1, r, acc, i =>
    match read_byte r with
    | none => none
    | some (b, r1) => read_bytesAux n r1 (acc ||| (b <<< (8*i))) (i+1)

/-- `BitReader.read_bytes(N)` exactly as written in the source:
`out = 0` and the loop header is `for i in range(out)` — i.e. it iterates
`out = 0` times, not `N` times.  The parameter `N` is never used, no byte
is consumed and the result is always `0`. -/
def read_bytes (r : BitReader) (_N : Nat) : Option (Nat × BitReader) :=
  let out := 0
  read_bytesAux out r out 0

/-- `myzlib.Node` / the pointer structure built by `HuffmanTree`:
`nil` stands for a `None` child pointer; `mk s l r` is a `Node` whose
`symbol` is `s` (`none` models the initial `''`). -/
inductive Tree where
  | nil : Tree
  | mk (symbol : Option Nat) (left : Tree) (right : Tree) : Tree
deriving DecidableEq, Repr

/-- `HuffmanTree.insert(huffman_code, code_len, alphabet)`, recursion on
the remaining code length.  Step `i` of the source reads bit
`(huffman_code >> (code_len-1-i)) & 1` and walks right on 1 / left on 0,
creating a fresh `Node()` (here: descending into `nil`) when the child
pointer is `None`; the leaf finally receives the symbol. -/
def insert : Nat → Tree → Nat → Nat → Tree
  | 0, Tree.nil, _, sym => Tree.mk (some sym) Tree.nil Tree.nil
  | 0, Tree.mk _ l rt, _, sym => Tree.mk (some sym) l rt
  | n+1, Tree.nil, code, sym =>
    if (code >>> n) &&& 1 = 1 then
      Tree.mk none Tree.nil (insert n Tree.nil code sym)
    else
      Tree.mk none (insert n Tree.nil code sym) Tree.nil
  | n+1, Tree.mk s l rt, code, sym =>
    if (code >>> n) &&& 1 = 1 then Tree.mk s l (insert n rt code sym)
    else Tree.mk s (insert n l code sym) rt

/-- `myzlib.decode_symbol`: while the node has a child, read one bit and
descend right on 1 / left on 0; return the final node's symbol.
Descending into a `None` child (next loop iteration raises
`AttributeError` in Python) is `none`. -/
def decode_symbol : Tree → BitReader → Option (Option Nat × BitReader)
  | Tree.nil, _ => none
  | Tree.mk s Tree.nil Tree.nil, r => some (s, r)
  | Tree.mk _ l rt, r =>
    match read_bit r with
    | none => none
    | some (b, r1) => if b = 1 then decode_symbol rt r1 else decode_symbol l r1

/-- `bl_count` of `myzlib.build_tree`: entry `i` counts the occurrences
of bit length `i` in `bl`.  The source initialises the array to zero and
fills it only for `i` in `range(1, MAX_BITS+1)`, so index 0 stays 0. -/
def bl_count (bl : List Nat) (i : Nat) : Nat :=
  if i = 0 then 0 else (bl.filter (fun j => j = i)).length

/-- `base_code` of `myzlib.build_tree`:
`base_code[0] = 0`, `base_code[bits] = (base_code[bits-1] + bl_count[bits-1]) * 2`. -/
def base_code (bl : List Nat) : Nat → Nat
  | 0 => 0
  | b+1 => (base_code bl b + bl_count bl b) * 2

/-- Assignment loop of `myzlib.build_tree` over `zip(alphabet, bl)`:
skip entries with `bitlen == 0`; otherwise record
`(a, base_code[bitlen], bitlen)` and do `base_code[bitlen] += 1`.
The mutable `base_code` array is modelled by the function `next_code`. -/
def assignLoop : List (Nat × Nat) → (Nat → Nat) → List (Nat × Nat × Nat)
  | [], _ => []
  | (a, bitlen) :: rest, next_code =>
    if bitlen = 0 then assignLoop rest next_code
    else
      (a, next_code bitlen, bitlen) ::
        assignLoop rest (fun l => if l = bitlen then next_code bitlen + 1 else next_code l)

/-- The `(symbol, code, length)` triples inserted into the tree by
`myzlib.build_tree bl alphabet`, in loop order. -/
def build_assignments (bl alphabet : List Nat) : List (Nat × Nat × Nat) :=
  assignLoop (alphabet.zip bl) (base_code bl)

/-- `myzlib.build_tree`: insert every assignment into an initially
childless root node. -/
def build_tree (bl alphabet : List Nat) : Tree :=
  (build_assignments bl alphabet).foldl
    (fun t x => insert x.2.2 t x.2.1 x.1) (Tree.mk none Tree.nil Tree.nil)

/-- `myzlib.CLEN_CODE_ORDER`. -/
def CLEN_CODE_ORDER : List Nat :=
  [16, 17, 18, 0, 8, 7, 9, 6] ++ [10, 5, 11, 4, 12, 3, 13, 2] ++ [14, 1, 15]

/-- The loop `code_length_bl[CLEN_CODE_ORDER[i]] = r.read_bits(3)` for
`i in range(HCLEN)`; `k` is the running index `i`, `n` the remaining
iteration count. -/
def readClenLoop : Nat → Nat → BitReader → List Nat → Option (List Nat × BitReader)
  | 0, _, r, arr => some (arr, r)
  | n+1, k, r, arr =>
    match CLEN_CODE_ORDER.get? k with
    | none => none
    | some idx =>
      match read_bits r 3 with
      | none => none
      | some (v, r1) => readClenLoop n (k+1) r1 (arr.set idx v)

/-- One arm of the `while len(bl) < HLIT + HDIST` loop body of
`myzlib.preprocessing`, applied after a symbol `s` has been decoded:
* `0 <= s <= 15`: append `s`;
* `s == 16`: repeat the previous length (`bl[-1]`, `IndexError` when `bl`
  is empty) `read_bits(2) + 3` times;
* `s == 17`: append `read_bits(3) + 3` zeros;
* `s == 18`: append `read_bits(7) + 11` zeros;
* any other `s`: no branch taken, `bl` unchanged. -/
def clApply (r : BitReader) (bl : List Nat) (s : Nat) : Option (List Nat × BitReader) :=
  if s ≤ 15 then some (bl ++ [s], r)
  else if s = 16 then
    match bl.getLast? with
    | none => none
    | some prev =>
      match read_bits r 2 with
      | none => none
      | some (k, r1) => some (bl ++ List.replicate (k + 3) prev, r1)
  else if s = 17 then
    match read_bits r 3 with
    | none => none
    | some (k, r1) => some (bl ++ List.replicate (k + 3) 0, r1)
  else if s = 18 then
    match read_bits r 7 with
    | none => none
    | some (k, r1) => some (bl ++ List.replicate (k + 11) 0, r1)
  else some (bl, r)

/-- The `while len(bl) < HLIT + HDIST` loop of `myzlib.preprocessing`,
with fuel (a symbol outside 0..18 makes the Python loop spin forever;
here the fuel runs out). -/
def readCodeLengths (tree : Tree) (target : Nat) :
    Nat → BitReader → List Nat → Option (List Nat × BitReader)
  | 0, _, _ => none
  | fuel+1, r, bl =>
    if target ≤ bl.length then some (bl, r)
    else
      match decode_symbol tree r with
      | none => none
      | some (none, _) => none  -- symbol '' : `0 <= '' <= 15` is a TypeError
      | some (some s, r1) =>
        match clApply r1 bl s with
        | none => none
        | some (bl1, r2) => readCodeLengths tree target fuel r2 bl1

/-- `myzlib.preprocessing`: read `HLIT`, `HDIST`, `HCLEN`, scatter the
`HCLEN` 3-bit values through `CLEN_CODE_ORDER`, build the code-length
tree, decode `HLIT + HDIST` code lengths, split and build both trees. -/
def preprocessing (fuel : Nat) (r : BitReader) :
    Option ((Tree × Tree) × BitReader) :=
  match read_bits r 5 with
  | none => none
  | some (hlitRaw, r1) =>
    let HLIT := hlitRaw + 257
    match read_bits r1 5 with
    | none => none
    | some (hdistRaw, r2) =>
      let HDIST := hdistRaw + 1
      match read_bits r2 4 with
      | none => none
      | some (hclenRaw, r3) =>
        let HCLEN := hclenRaw + 4
        match readClenLoop HCLEN 0 r3 (List.replicate 19 0) with
        | none => none
        | some (code_length_bl, r4) =>
          let code_length_tree := build_tree code_length_bl (List.range 19)
          match readCodeLengths code_length_tree (HLIT + HDIST) fuel r4 [] with
          | none => none
          | some (bl, r5) =>
            let literal_length_tree := build_tree (bl.take HLIT) (List.range 286)
            let distance_tree := build_tree (bl.drop HLIT) (List.range 30)
            some ((literal_length_tree, distance_tree), r5)

/-- `myzlib.EXTRA_BITS_LENGTH`. -/
def EXTRA_BITS_LENGTH : List Nat :=
  [0, 0, 0, 0, 0, 0, 0, 0] ++ [1, 1, 1, 1, 2, 2, 2, 2] ++
  [3, 3, 3, 3, 4, 4, 4, 4] ++ [5, 5, 5, 5, 0]

/-- `myzlib.SMALLEST_LENGTH`. -/
def SMALLEST_LENGTH : List Nat :=
  [3, 4, 5, 6, 7, 8, 9, 10] ++ [11, 13, 15, 17, 19, 23, 27, 31] ++
  [35, 43, 51, 59, 67, 83, 99, 115] ++ [131, 163, 195, 227, 258]

/-- `myzlib.EXTRA_BITS_DISTANCE`. -/
def EXTRA_BITS_DISTANCE : List Nat :=
  [0, 0, 0, 0, 1, 1, 2, 2] ++ [3, 3, 4, 4, 5, 5, 6, 6] ++
  [7, 7, 8, 8, 9, 9, 10, 10] ++ [11, 11, 12, 12, 13, 13]

/-- `myzlib.SMALLEST_DISTANCE`. -/
def SMALLEST_DISTANCE : List Nat :=
  [1, 2, 3, 4, 5, 7, 9, 13] ++ [17, 25, 33, 49, 65, 97, 129, 193] ++
  [257, 385, 513, 769, 1025, 1537, 2049, 3073] ++
  [4097, 6145, 8193, 12289, 16385, 24577]

/-- Python `xs[-d]` on a list of current length `xs.length`:
`xs[len - d]` when `0 < d <= len`, `xs[0]` when `d = 0`, `IndexError`
otherwise. -/
def negIdx (xs : List Nat) (d : Nat) : Option Nat :=
  if d = 0 then xs.get? 0
  else if d ≤ xs.length then xs.get? (xs.length - d) else none

/-- The back-reference copy `for i in range(length): output.append(output[-distance])`,
one byte at a time. -/
def copyLoop (out : List Nat) (distance : Nat) : Nat → Option (List Nat)
  | 0 => some out
  | n+1 =>
    match negIdx out distance with
    | none => none
    | some b => copyLoop (out ++ [b]) distance n

/-- `length = SMALLEST_LENGTH[symbol] + r.read_bits(EXTRA_BITS_LENGTH[symbol])`
after `symbol -= 257` (`idx` is the already reduced index; an index out of
the tables is an `IndexError`). -/
def resolveLength (r : BitReader) (idx : Nat) : Option (Nat × BitReader) :=
  match SMALLEST_LENGTH.get? idx, EXTRA_BITS_LENGTH.get? idx with
  | some base, some eb =>
    match read_bits r eb with
    | none => none
    | some (extra, r1) => some (base + extra, r1)
  | _, _ => none

/-- `distance = SMALLEST_DISTANCE[distance] + r.read_bits(EXTRA_BITS_DISTANCE[distance])`
for a decoded distance symbol `dsym`. -/
def resolveDistance (r : BitReader) (dsym : Nat) : Option (Nat × BitReader) :=
  match SMALLEST_DISTANCE.get? dsym, EXTRA_BITS_DISTANCE.get? dsym with
  | some base, some eb =>
    match read_bits r eb with
    | none => none
    | some (extra, r1) => some (base + extra, r1)
  | _, _ => none

/-- The back-reference arm of `myzlib.inflate_block` for a decoded
literal/length symbol `>= 257`: resolve the copy length, decode and
resolve the distance, then run the byte-at-a-time copy loop. -/
def backrefStep (distance_tree : Tree) (r : BitReader) (out : List Nat)
    (symbol : Nat) : Option (List Nat × BitReader) :=
  match resolveLength r (symbol - 257) with
  | none => none
  | some (length, r2) =>
    match decode_symbol distance_tree r2 with
    | none => none
    | some (none, _) => none
    | some (some dsym, r3) =>
      match resolveDistance r3 dsym with
      | none => none
      | some (distance, r4) =>
        match copyLoop out distance length with
        | none => none
        | some out1 => some (out1, r4)

/-- One iteration of the `while True` loop of `myzlib.inflate_block`:
decode a literal/length symbol; `<= 255` is a literal appended to the
output, 256 ends the block (the `Bool` is `true`), `>= 257` is a
back-reference handled by `backrefStep`; exceptions are `none`. -/
def inflate_block_step (literal_length_tree distance_tree : Tree)
    (r : BitReader) (out : List Nat) :
    Option ((List Nat × Bool) × BitReader) :=
  match decode_symbol literal_length_tree r with
  | none => none
  | some (none, _) => none  -- symbol '' : `'' <= 255` is a TypeError
  | some (some symbol, r1) =>
    if symbol ≤ 255 then some ((out ++ [symbol], false), r1)
    else if symbol = 256 then some ((out, true), r1)
    else
      match backrefStep distance_tree r1 out symbol with
      | none => none
      | some (out1, r4) => some ((out1, false), r4)

/-- The `while True` loop of `myzlib.inflate_block`, with fuel. -/
def inflate_block (literal_length_tree distance_tree : Tree) :
    Nat → BitReader → List Nat → Option (List Nat × BitReader)
  | 0, _, _ => none
  | fuel+1, r, out =>
    match inflate_block_step literal_length_tree distance_tree r out with
    | none => none
    | some ((out1, true), r1) => some (out1, r1)
    | some ((out1, false), r1) =>
      inflate_block literal_length_tree distance_tree fuel r1 out1

/-- `myzlib.inflate_block_no_compression`: `LEN = read_bytes(2)`,
`NLEN = read_bytes(2)`, then `output.append(read_bytes(LEN))` — note the
source appends the single integer returned by `read_bytes`, it does not
extend the output byte-by-byte. -/
def inflate_block_no_compression (r : BitReader) (out : List Nat) :
    Option (List Nat × BitReader) :=
  match read_bytes r 2 with
  | none => none
  | some (LEN, r1) =>
    match read_bytes r1 2 with
    | none => none
    | some (_NLEN, r2) =>
      match read_bytes r2 LEN with
      | none => none
      | some (v, r3) => some (out ++ [v], r3)

/-- The fixed literal/length code lengths of
`myzlib.inflate_block_fixed_huffman_code`: 8 for 0..143, 9 for 144..255,
7 for 256..279, 8 for 280..287. -/
def fixed_literal_bl : List Nat :=
  (List.replicate 144 8 ++ List.replicate 112 9) ++
    (List.replicate 24 7 ++ List.replicate 8 8)

/-- Fixed literal/length tree (`build_tree(bl, range(286))`). -/
def fixed_literal_tree : Tree := build_tree fixed_literal_bl (List.range 286)

/-- Fixed distance tree (`build_tree([5]*30, range(30))`). -/
def fixed_distance_tree : Tree :=
  build_tree (List.replicate 30 5) (List.range 30)

/-- `myzlib.inflate_block_fixed_huffman_code`. -/
def inflate_block_fixed_huffman_code (fuel : Nat) (r : BitReader)
    (out : List Nat) : Option (List Nat × BitReader) :=
  inflate_block fixed_literal_tree fixed_distance_tree fuel r out

/-- `myzlib.inflate_block_dynamic_huffman_code`. -/
def inflate_block_dynamic_huffman_code (fuel : Nat) (r : BitReader)
    (out : List Nat) : Option (List Nat × BitReader) :=
  match preprocessing fuel r with
  | none => none
  | some ((lt, dt), r1) => inflate_block lt dt fuel r1 out

/-- The `BTYPE` dispatch of `myzlib.inflate`: `BTYPE == 3` raises
(`Reserved (Error) BTYPE`). -/
def inflateStep (fuel : Nat) (BTYPE : Nat) (r : BitReader) (out : List Nat) :
    Option (List Nat × BitReader) :=
  if BTYPE = 0 then inflate_block_no_compression r out
  else if BTYPE = 1 then inflate_block_fixed_huffman_code fuel r out
  else if BTYPE = 2 then inflate_block_dynamic_huffman_code fuel r out
  else none

/-- The `while True` block loop of `myzlib.inflate`: read `BFINAL` and
`BTYPE`, dispatch on the block type, stop after the block whose `BFINAL`
was 1. -/
def inflateLoop : Nat → BitReader → List Nat → Option (List Nat × BitReader)
  | 0, _, _ => none
  | fuel+1, r, out =>
    match read_bit r with
    | none => none
    | some (BFINAL, r1) =>
      match read_bits r1 2 with
      | none => none
      | some (BTYPE, r2) =>
        match inflateStep fuel BTYPE r2 out with
        | none => none
        | some (out1, r3) =>
          if BFINAL = 1 then some (out1, r3) else inflateLoop fuel r3 out1

/-- `myzlib.inflate`: run the block loop starting from an empty output. -/
def inflate (fuel : Nat) (r : BitReader) : Option (List Nat × BitReader) :=
  inflateLoop fuel r []

/-- Python `bytes(output)`: succeeds iff every element is a valid byte. -/
def bytesOf (out : List Nat) : Option (List Nat) :=
  if out.all (fun x => x < 256) then some out else none

/-- The reader-level part of `myzlib.decompress`: zlib header checks,
`inflate`, and the (no-op, see `read_bytes`) Adler-32 read. -/
def decompressCore (fuel : Nat) (r : BitReader) : Option (List Nat × BitReader) :=
  match read_byte r with
  | none => none
  | some (CMF, r1) =>
    if CMF &&& 15 ≠ 8 then none            -- CM != 8
    else if CMF >>> 4 > 7 then none        -- CINFO > 7
    else
      match read_byte r1 with
      | none => none
      | some (FLG, r2) =>
        if (CMF * 256 + FLG) % 31 ≠ 0 then none
        else if (FLG >>> 5) &&& 1 ≠ 0 then none   -- FDICT set
        else
          match inflate fuel r2 with
          | none => none
          | some (out, r3) =>
            match read_bytes r3 4 with   -- ADLER32 (never verified)
            | none => none
            | some (_adler, r4) => some (out, r4)

/-- `myzlib.decompress`. -/
def decompress (fuel : Nat) (input : List Nat) : Option (List Nat) :=
  match decompressCore fuel (BitReader.init input) with
  | none => none
  | some (out, _) => bytesOf out

end Zlib

namespace Png

/-- Python `int.from_bytes(bs, byteorder='big')`. -/
def fromBytesBE (bs : List Nat) : Nat :=
  bs.foldl (fun acc b => acc * 256 + b) 0

/-- One bit step of CRC-32: shift right, xor the reflected polynomial
`0xEDB88320` when the dropped bit was 1. -/
def crcBitStep (c : Nat) : Nat :=
  if c % 2 = 1 then (c / 2) ^^^ 0xEDB88320 else c / 2

/-- `n` bit steps of CRC-32. -/
def crcBitSteps : Nat → Nat → Nat
  | 0, c => c
  | n+1, c => crcBitSteps n (crcBitStep c)

/-- One byte step of CRC-32: xor the byte into the register, then eight
bit steps. -/
def crcByteStep (c b : Nat) : Nat := crcBitSteps 8 (c ^^^ b)

/-- Modelled from the spec: `zlib.crc32` (Python standard library, not
part of `src/`), the CRC-32/ISO-HDLC checksum the spec names for
`CRC32(tag‖payload)`: register initialised to `0xFFFFFFFF`, one byte
step per input byte, final complement. -/
def crc32 (data : List Nat) : Nat :=
  (data.foldl crcByteStep 0xFFFFFFFF) ^^^ 0xFFFFFFFF

/-- Python slice `data[a : a+n]` for a non-negative start (clamping at
the end of the list, like Python). -/
def slice (data : List Nat) (a n : Nat) : List Nat :=
  (data.drop a).take n

/-- The chunk type tag `data[id : id+4]` of `PNGDecoder.read_chunk`. -/
def chunkTag (data : List Nat) (id : Nat) : List Nat := slice data id 4

/-- The declared length `int.from_bytes(data[id-4 : id])` of
`PNGDecoder.read_chunk` (callers always pass `id ≥ 4`). -/
def chunkLen (data : List Nat) (id : Nat) : Nat :=
  fromBytesBE (slice data (id - 4) 4)

/-- The payload `data[id+4 : id+4+len]` of `PNGDecoder.read_chunk`. -/
def chunkPayload (data : List Nat) (id : Nat) : List Nat :=
  slice data (id + 4) (chunkLen data id)

/-- The stored big-endian CRC `data[id+4+len : id+8+len]` of
`PNGDecoder.read_chunk`. -/
def storedCrc (data : List Nat) (id : Nat) : Nat :=
  fromBytesBE (slice data (id + 4 + chunkLen data id) 4)

/-- `PNGDecoder.read_chunk`: raise (`none`) iff
`zlib.crc32(chunk_type + chunk_data) != crc_data`, else return the
payload. -/
def read_chunk (data : List Nat) (id : Nat) : Option (List Nat) :=
  if crc32 (chunkTag data id ++ chunkPayload data id) ≠ storedCrc data id
  then none
  else some (chunkPayload data id)

/-- `Filter.paeth_predictor`: `p = a + b - c` (computed in `Int`, as
Python ints), absolute differences, ties preferring `a`, then `b`. -/
def paeth_predictor (a b c : Nat) : Nat :=
  let p : Int := (a : Int) + (b : Int) - (c : Int)
  let pa := (p - (a : Int)).natAbs
  let pb := (p - (b : Int)).natAbs
  let pc := (p - (c : Int)).natAbs
  if pa ≤ pb ∧ pa ≤ pc then a
  else if pb ≤ pc then b
  else c

/-- `Filter.recon_a`: reconstructed byte to the left,
`recon[r*stride + c - bpp]` when `c >= bpp`, else 0. -/
def recon_a (recon : List Nat) (stride bpp r c : Nat) : Option Nat :=
  if bpp ≤ c then recon.get? (r * stride + c - bpp) else some 0

/-- `Filter.recon_b`: reconstructed byte above,
`recon[(r-1)*stride + c]` when `r > 0`, else 0. -/
def recon_b (recon : List Nat) (stride _bpp r c : Nat) : Option Nat :=
  if 0 < r then recon.get? ((r - 1) * stride + c) else some 0

/-- `Filter.recon_c`: reconstructed byte up-left,
`recon[(r-1)*stride + c - bpp]` when `r > 0` and `c >= bpp`, else 0. -/
def recon_c (recon : List Nat) (stride bpp r c : Nat) : Option Nat :=
  if 0 < r ∧ bpp ≤ c then recon.get? ((r - 1) * stride + c - bpp) else some 0

/-- The per-byte dispatch of `Filter.re_filter` on the row's filter type:
the value `recon_x` before the `& 0xff` truncation.  An unknown filter
type raises (`none`). -/
def filterCell (recon : List Nat) (stride bpp ft r c fx : Nat) : Option Nat :=
  if ft = 0 then some fx
  else if ft = 1 then
    match recon_a recon stride bpp r c with
    | none => none
    | some a => some (fx + a)
  else if ft = 2 then
    match recon_b recon stride bpp r c with
    | none => none
    | some b => some (fx + b)
  else if ft = 3 then
    match recon_a recon stride bpp r c, recon_b recon stride bpp r c with
    | some a, some b => some (fx + (a + b) / 2)
    | _, _ => none
  else if ft = 4 then
    match recon_a recon stride bpp r c, recon_b recon stride bpp r c,
          recon_c recon stride bpp r c with
    | some a, some b, some c0 => some (fx + paeth_predictor a b c0)
    | _, _, _ => none
  else none

/-- The inner `for c in range(self.stride)` loop of `Filter.re_filter`:
read `filt_x = idat_data[i]`, advance `i`, compute `recon_x`, append
`recon_x & 0xff`.  `rem` counts the remaining columns. -/
def reFilterCols (idat : List Nat) (stride bpp ft r : Nat) :
    Nat → Nat → List Nat → Nat → Option (List Nat × Nat)
  | 0, _, recon, i => some (recon, i)
  | rem+1, c, recon, i =>
    match idat.get? i with
    | none => none
    | some fx =>
      match filterCell recon stride bpp ft r c fx with
      | none => none
      | some v =>
        reFilterCols idat stride bpp ft r rem (c+1) (recon ++ [v % 256]) (i+1)

/-- The outer `for r in range(self.height)` loop of `Filter.re_filter`:
read the row's filter-type byte, advance `i`, run the column loop.
`rows` counts the remaining rows. -/
def reFilterRows (idat : List Nat) (stride bpp : Nat) :
    Nat → Nat → List Nat → Nat → Option (List Nat)
  | 0, _, recon, _ => some recon
  | rows+1, r, recon, i =>
    match idat.get? i with
    | none => none
    | some ft =>
      match reFilterCols idat stride bpp ft r stride 0 recon (i+1) with
      | none => none
      | some (recon1, i1) => reFilterRows idat stride bpp rows (r+1) recon1 i1

/-- `Filter.re_filter` for an image of `height` rows and
`stride = width * bytes_per_pixel` bytes per row. -/
def re_filter (width height bpp : Nat) (idat : List Nat) : Option (List Nat) :=
  reFilterRows idat (width * bpp) bpp height 0 [] 0

end Png

/-! ## Helper lemmas for the zlib layer -/

namespace Zlib

/-- `read_bytes` never moves the cursor and always returns 0: the source
loop `for i in range(out)` iterates zero times. -/
theorem read_bytes_noop (r : BitReader) (N : Nat) :
    read_bytes r N = some (0, r) := rfl

/-- A bit produced by `read_bit` is 0 or 1. -/
theorem read_bit_le (r r1 : BitReader) (b : Nat)
    (h : read_bit r = some (b, r1)) : b ≤ 1 := by
  unfold read_bit at h
  split at h
  · cases hrb : read_byte r with
    | none => rw [hrb] at h; exact absurd h (by simp)
    | some p =>
      rw [hrb] at h
      cases h
      exact Nat.le_of_lt_succ (Nat.mod_lt _ (by omega))
  · cases h
    exact Nat.le_of_lt_succ (Nat.mod_lt _ (by omega))

/-- Accumulator bound for the `read_bits` loop. -/
theorem read_bitsAux_lt :
    ∀ (n : Nat) (r : BitReader) (acc i v : Nat) (r1 : BitReader),
      acc < 2 ^ i → read_bitsAux n r acc i = some (v, r1) → v < 2 ^ (i + n)
  | 0, r, acc, i, v, r1, hacc, h => by
    cases h
    simpa using hacc
  | n+1, r, acc, i, v, r1, hacc, h => by
    rw [read_bitsAux] at h
    cases hrb : read_bit r with
    | none => rw [hrb] at h; exact absurd h (by simp)
    | some p =>
      obtain ⟨b, rb⟩ := p
      rw [hrb] at h
      have hb : b ≤ 1 := read_bit_le r rb b hrb
      have hacc1 : acc ||| (b <<< i) < 2 ^ (i + 1) := by
        apply Nat.or_lt_two_pow
        · exact lt_of_lt_of_le hacc (Nat.pow_le_pow_right (by omega) (by omega))
        · rw [Nat.shiftLeft_eq]
          calc b * 2 ^ i ≤ 1 * 2 ^ i := Nat.mul_le_mul_right _ hb
            _ < 2 ^ (i + 1) := by rw [Nat.pow_succ]; omega
      have := read_bitsAux_lt n rb (acc ||| (b <<< i)) (i+1) v r1 hacc1 h
      have heq : i + 1 + n = i + (n + 1) := by omega
      rwa [heq] at this

/-- A value returned by `read_bits(N)` is below `2^N`. -/
theorem read_bits_lt (r : BitReader) (N v : Nat) (r1 : BitReader)
    (h : read_bits r N = some (v, r1)) : v < 2 ^ N := by
  have := read_bitsAux_lt N r 0 0 v r1 (by simp) h
  simpa using this

/-- Positional characterization of the `build_tree` assignment loop: the
entry at position `i` of the zipped (symbol, length) list, if its length
is nonzero, is assigned code `next_code length + (number of earlier
entries of the same length)`. -/
theorem assignLoop_mem_of_get? :
    ∀ (pairs : List (Nat × Nat)) (nc : Nat → Nat) (i : Nat) (a l : Nat),
      pairs.get? i = some (a, l) → l ≠ 0 →
      (a, nc l + ((pairs.take i).filter (fun p => p.2 = l)).length, l) ∈
        assignLoop pairs nc
  | [], _, i, a, l, h, _ => by simp at h
  | (a0, l0) :: rest, nc, 0, a, l, h, hl => by
    simp only [List.get?] at h
    cases h
    simp only [List.take_zero, List.filter_nil, List.length_nil, Nat.add_zero]
    rw [assignLoop, if_neg hl]
    exact List.mem_cons_self _ _
  | (a0, l0) :: rest, nc, i+1, a, l, h, hl => by
    simp only [List.get?] at h
    rw [List.take_succ_cons, List.filter_cons]
    by_cases h0 : l0 = 0
    · subst h0
      rw [assignLoop, if_pos rfl]
      have hne : ¬ ((0:Nat) = l) := fun hc => hl hc.symm
      simp only [hne, decide_False, Bool.false_eq_true, if_false]
      exact assignLoop_mem_of_get? rest nc i a l h hl
    · rw [assignLoop, if_neg h0]
      apply List.mem_cons_of_mem
      have ih := assignLoop_mem_of_get? rest
        (fun x => if x = l0 then nc l0 + 1 else nc x) i a l h hl
      by_cases hll : l0 = l
      · subst hll
        simp only [decide_True, if_true, List.length_cons]
        have heq : nc l0 +
            ((List.filter (fun p => decide (p.2 = l0)) (List.take i rest)).length + 1) =
            (if l0 = l0 then nc l0 + 1 else nc l0) +
              (List.filter (fun p => decide (p.2 = l0)) (List.take i rest)).length := by
          rw [if_pos rfl]; omega
        rw [heq]
        exact ih
      · have hd : ¬ ((l0:Nat) = l) := hll
        simp only [hd, decide_False, Bool.false_eq_true, if_false]
        have heq : nc l +
            (List.filter (fun p => decide (p.2 = l)) (List.take i rest)).length =
            (if l = l0 then nc l0 + 1 else nc l) +
              (List.filter (fun p => decide (p.2 = l)) (List.take i rest)).length := by
          rw [if_neg (fun hc => hll hc.symm)]
        rw [heq]
        exact ih

/-- Everything the assignment loop emits has a nonzero length and comes
from the zipped input list. -/
theorem assignLoop_mem_inv :
    ∀ (pairs : List (Nat × Nat)) (nc : Nat → Nat) (a c l : Nat),
      (a, c, l) ∈ assignLoop pairs nc → l ≠ 0 ∧ (a, l) ∈ pairs
  | [], _, a, c, l, h => by simp [assignLoop] at h
  | (a0, l0) :: rest, nc, a, c, l, h => by
    rw [assignLoop] at h
    split at h
    · rename_i h0
      subst h0
      have := assignLoop_mem_inv rest nc a c l h
      exact ⟨this.1, List.mem_cons_of_mem _ this.2⟩
    · rename_i h0
      rcases List.mem_cons.mp h with heq | htail
      · cases heq
        exact ⟨h0, List.mem_cons_self _ _⟩
      · have := assignLoop_mem_inv rest _ a c l htail
        exact ⟨this.1, List.mem_cons_of_mem _ this.2⟩

end Zlib

namespace Zlib

/-- Lookups below the length of a list-prefix agree with the longer list. -/
theorem prefix_get? {xs ys : List Nat} (h : List.IsPrefix xs ys) (n : Nat)
    (hn : n < xs.length) : ys.get? n = xs.get? n := by
  obtain ⟨t, rfl⟩ := h
  exact List.get?_append hn

/-- Success and per-byte characterization of the back-reference copy
loop: for `1 ≤ d ≤ |out|` it succeeds, appends exactly `L` bytes after
`out`, and each appended byte equals the byte `d` positions before it in
the final buffer (overlap-correct byte-at-a-time copy). -/
theorem copyLoop_spec :
    ∀ (L : Nat) (out : List Nat) (d : Nat), 1 ≤ d → d ≤ out.length →
      ∃ res, copyLoop out d L = some res ∧ res.length = out.length + L ∧
        List.IsPrefix out res ∧
        ∀ i, i < L → res.get? (out.length + i) = res.get? (out.length + i - d)
  | 0, out, d, _, _ =>
    ⟨out, rfl, by simp, List.prefix_rfl, fun i hi => absurd hi (by omega)⟩
  | L+1, out, d, hd1, hdl => by
    have hlt : out.length - d < out.length := by omega
    obtain ⟨b, hb⟩ :
        ∃ b, out.get? (out.length - d) = some b :=
      ⟨out.get ⟨out.length - d, hlt⟩, List.get?_eq_get hlt⟩
    have hneg : negIdx out d = some b := by
      unfold negIdx
      rw [if_neg (by omega), if_pos hdl]
      exact hb
    have hstep : copyLoop out d (L+1) = copyLoop (out ++ [b]) d L := by
      rw [copyLoop, hneg]
    have hdl1 : d ≤ (out ++ [b]).length := by
      simp only [List.length_append, List.length_singleton]; omega
    obtain ⟨res, hrun, hlen, hpre, hidx⟩ := copyLoop_spec L (out ++ [b]) d hd1 hdl1
    refine ⟨res, by rw [hstep]; exact hrun, ?_, ?_, ?_⟩
    · simp only [List.length_append, List.length_singleton] at hlen
      omega
    · exact (List.prefix_append out [b]).trans hpre
    · intro i hi
      match i with
      | 0 =>
        have h1 : res.get? (out.length + 0) = some b := by
          have : out.length < (out ++ [b]).length := by simp
          rw [Nat.add_zero, prefix_get? hpre _ this]
          rw [List.get?_eq_getElem?, List.getElem?_append, if_neg (by omega)]
          simp
        have h2 : res.get? (out.length + 0 - d) = some b := by
          have hlt2 : out.length + 0 - d < (out ++ [b]).length := by simp; omega
          rw [prefix_get? hpre _ hlt2]
          rw [List.get?_eq_getElem?, List.getElem?_append, if_pos (by omega)]
          rw [Nat.add_zero]
          rw [List.get?_eq_getElem?] at hb
          exact hb
        rw [h1, h2]
      | j+1 =>
        have h1 : out.length + (j+1) = (out ++ [b]).length + j := by simp; omega
        rw [h1]
        exact hidx j (by omega)

/-- A byte delivered by `negIdx` is an element of the buffer. -/
theorem negIdx_mem {out : List Nat} {d b : Nat} (h : negIdx out d = some b) :
    b ∈ out := by
  unfold negIdx at h
  split at h
  · exact List.get?_mem h
  · split at h
    · exact List.get?_mem h
    · exact absurd h (by simp)

/-- The copy loop only appends bytes already in the buffer, so the byte
bound is preserved. -/
theorem copyLoop_all_lt :
    ∀ (L : Nat) (out : List Nat) (d : Nat) (res : List Nat),
      (∀ x ∈ out, x < 256) → copyLoop out d L = some res → ∀ x ∈ res, x < 256
  | 0, out, d, res, hout, h => by
    cases h
    exact hout
  | L+1, out, d, res, hout, h => by
    rw [copyLoop] at h
    cases hneg : negIdx out d with
    | none => rw [hneg] at h; exact absurd h (by simp)
    | some b =>
      rw [hneg] at h
      have hb : b < 256 := hout b (negIdx_mem hneg)
      have hout1 : ∀ x ∈ out ++ [b], x < 256 := by
        intro x hx
        rcases List.mem_append.mp hx with hx | hx
        · exact hout x hx
        · rcases List.mem_singleton.mp hx with rfl
          exact hb
      exact copyLoop_all_lt L (out ++ [b]) d res hout1 h

end Zlib

namespace Zlib

/-- With `read_bytes` a no-op, a stored block reads nothing and appends
the single integer `0` to the output. -/
theorem inflate_block_no_compression_eq (r : BitReader) (out : List Nat) :
    inflate_block_no_compression r out = some (out ++ [0], r) := rfl

/-- A back-reference step only adds copies of bytes already present. -/
theorem backrefStep_all_lt (dt : Tree) (r : BitReader) (out : List Nat)
    (symbol : Nat) (out1 : List Nat) (r4 : BitReader)
    (hout : ∀ x ∈ out, x < 256)
    (h : backrefStep dt r out symbol = some (out1, r4)) :
    ∀ x ∈ out1, x < 256 := by
  unfold backrefStep at h
  split at h
  · exact Option.noConfusion h
  · split at h
    · exact Option.noConfusion h
    · exact Option.noConfusion h
    · split at h
      · exact absurd h (by simp)
      · split at h
        · exact absurd h (by simp)
        · rename_i res hcopy
          cases h
          exact copyLoop_all_lt _ out _ out1 hout hcopy

/-- One loop iteration of the block decoder preserves the byte bound on
the output buffer, whether it ends the block or continues. -/
theorem inflate_block_step_all_lt (lt dt : Tree) (r : BitReader)
    (out : List Nat) (hout : ∀ x ∈ out, x < 256) (out1 : List Nat)
    (flag : Bool) (r1 : BitReader)
    (h : inflate_block_step lt dt r out = some ((out1, flag), r1)) :
    ∀ x ∈ out1, x < 256 := by
  unfold inflate_block_step at h
  split at h
  · exact Option.noConfusion h
  · exact Option.noConfusion h
  · rename_i symbol r2 heq
    split at h
    · rename_i hle
      cases h
      intro x hx
      rcases List.mem_append.mp hx with hx | hx
      · exact hout x hx
      · rcases List.mem_singleton.mp hx with rfl
        omega
    · split at h
      · cases h
        exact hout
      · split at h
        · exact absurd h (by simp)
        · rename_i hbr
          cases h
          exact backrefStep_all_lt dt r2 out symbol _ _ hout hbr

/-- The shared block decoder only appends literals `≤ 255` or copies of
bytes already in the buffer, so every output byte stays below 256. -/
theorem inflate_block_all_lt :
    ∀ (fuel : Nat) (lt dt : Tree) (r : BitReader) (out res : List Nat)
      (r1 : BitReader),
      (∀ x ∈ out, x < 256) → inflate_block lt dt fuel r out = some (res, r1) →
      ∀ x ∈ res, x < 256
  | 0, _, _, _, _, _, _, _, h => Option.noConfusion h
  | fuel+1, lt, dt, r, out, res, rfin, hout, h => by
    rw [inflate_block] at h
    split at h
    · exact absurd h (by simp)
    · rename_i hstep
      cases h
      exact inflate_block_step_all_lt lt dt r out hout _ _ _ hstep
    · rename_i hstep
      exact inflate_block_all_lt fuel lt dt _ _ res rfin
        (inflate_block_step_all_lt lt dt r out hout _ _ _ hstep) h

/-- `inflateStep` preserves the byte bound on the output buffer. -/
theorem inflateStep_all_lt (fuel BTYPE : Nat) (r : BitReader)
    (out res : List Nat) (r1 : BitReader)
    (hout : ∀ x ∈ out, x < 256)
    (h : inflateStep fuel BTYPE r out = some (res, r1)) :
    ∀ x ∈ res, x < 256 := by
  unfold inflateStep at h
  split at h
  · rw [inflate_block_no_compression_eq] at h
    cases h
    intro x hx
    rcases List.mem_append.mp hx with hx | hx
    · exact hout x hx
    · rcases List.mem_singleton.mp hx with rfl
      omega
  · split at h
    · exact inflate_block_all_lt fuel _ _ r out res r1 hout h
    · split at h
      · unfold inflate_block_dynamic_huffman_code at h
        split at h
        · exact absurd h (by simp)
        · rename_i p heq
          exact inflate_block_all_lt fuel _ _ _ out res r1 hout h
      · exact absurd h (by simp)

/-- The block loop of `inflate` preserves the byte bound. -/
theorem inflateLoop_all_lt :
    ∀ (fuel : Nat) (r : BitReader) (out res : List Nat) (r1 : BitReader),
      (∀ x ∈ out, x < 256) → inflateLoop fuel r out = some (res, r1) →
      ∀ x ∈ res, x < 256
  | 0, r, out, res, r1, hout, h => by simp [inflateLoop] at h
  | fuel+1, r, out, res, r1, hout, h => by
    rw [inflateLoop] at h
    split at h
    · exact absurd h (by simp)
    · rename_i BFINAL rb heq
      split at h
      · exact absurd h (by simp)
      · rename_i BTYPE r2 heq2
        split at h
        · exact absurd h (by simp)
        · rename_i out1 r3 hstep
          have hout1 : ∀ x ∈ out1, x < 256 :=
            inflateStep_all_lt fuel BTYPE r2 out out1 r3 hout hstep
          split at h
          · cases h
            exact hout1
          · exact inflateLoop_all_lt fuel r3 out1 res r1 hout1 h

end Zlib

/-! ## Claim theorems (zlib layer) -/

/-- Claim C2 (code bug): `BitReader.read_bytes(n)` is supposed to read
the next `n` aligned bytes and advance the cursor, but the source loop
`for i in range(out)` iterates `out = 0` times: for every reader state
and every `n` it returns the integer 0 and leaves the reader unchanged. -/
theorem c2_read_bytes_reads_nothing (r : Zlib.BitReader) (N : Nat) :
    Zlib.read_bytes r N = some (0, r) := rfl

/-- Claim C1 (code bug): on a stored block (`BFINAL=1`, `BTYPE=0`,
`LEN=5`, `NLEN=0xFAFF`, data `"ABCDE"`) the inflate engine does not
byte-align, reads neither `LEN` nor `NLEN` nor any data byte (the cursor
stops at byte 1), and appends the single integer 0 instead of the five
raw bytes. -/
theorem c1_stored_block_appends_zero :
    Zlib.inflate 100 (Zlib.BitReader.init
        [0x01, 0x05, 0x00, 0xFA, 0xFF, 0x41, 0x42, 0x43, 0x44, 0x45]) =
      some ([0],
        ⟨[0x01, 0x05, 0x00, 0xFA, 0xFF, 0x41, 0x42, 0x43, 0x44, 0x45],
          1, 0, 5⟩) := rfl

/-- Claim C3 (counterexample): decompressing the 12-byte fixture
`08 D7 63 F8 CF C0 00 00 03 01 01 00` does not return the 12 ASCII bytes
of `"Hello World!"`. -/
theorem c3_fixture_not_hello_world :
    Zlib.decompress 100
        [0x08, 0xD7, 0x63, 0xF8, 0xCF, 0xC0, 0x00, 0x00, 0x03, 0x01, 0x01, 0x00] ≠
      some [72, 101, 108, 108, 111, 32, 87, 111, 114, 108, 100, 33] := by
  decide

/-- Claim C3 (amended): decompressing the 12-byte fixture
`08 D7 63 F8 CF C0 00 00 03 01 01 00` succeeds and returns exactly the
4 bytes `00 FF 00 00` (one fixed-Huffman block; the trailing Adler-32
`03 01 01 00` is indeed the checksum of these 4 bytes). -/
theorem c3_fixture_decodes_to_four_bytes :
    Zlib.decompress 100
        [0x08, 0xD7, 0x63, 0xF8, 0xCF, 0xC0, 0x00, 0x00, 0x03, 0x01, 0x01, 0x00] =
      some [0, 255, 0, 0] := rfl

/-- Claim C4: `build_tree` assigns canonical codes — `base_code 1 = 0`
and `base_code (len+1) = (base_code len + bl_count len) * 2`; the symbol
at position `i` of `zip alphabet bl` whose length `l` is nonzero receives
code `base_code l` plus the number of earlier symbols of the same length
(so codes increment once per assignment, in alphabet order within each
length class); and every emitted assignment has a nonzero length taken
from the zipped input, so zero-length symbols receive no code. -/
theorem c4_build_tree_canonical_codes :
    (∀ bl : List Nat, Zlib.base_code bl 1 = 0 ∧
       ∀ b : Nat, Zlib.base_code bl (b+1) =
         (Zlib.base_code bl b + Zlib.bl_count bl b) * 2) ∧
    (∀ (bl alphabet : List Nat) (i a l : Nat),
       (alphabet.zip bl).get? i = some (a, l) → l ≠ 0 →
       (a, Zlib.base_code bl l +
             (((alphabet.zip bl).take i).filter (fun p => p.2 = l)).length, l) ∈
         Zlib.build_assignments bl alphabet) ∧
    (∀ (bl alphabet : List Nat) (a c l : Nat),
       (a, c, l) ∈ Zlib.build_assignments bl alphabet →
       l ≠ 0 ∧ (a, l) ∈ alphabet.zip bl) :=
  ⟨fun _ => ⟨rfl, fun _ => rfl⟩,
   fun _ _ i a l h hl => Zlib.assignLoop_mem_of_get? _ _ i a l h hl,
   fun _ _ a c l h => Zlib.assignLoop_mem_inv _ _ a c l h⟩

/-- Witness for C4 at `bl = [2,1,2]`, `alphabet = [0,1,2]`: symbol 2 (the
second symbol of length 2) receives code `base_code 2 + 1 = 3`. -/
theorem c4_build_tree_canonical_codes_witness :
    (2, 3, 2) ∈ Zlib.build_assignments [2, 1, 2] [0, 1, 2] :=
  c4_build_tree_canonical_codes.2.1 [2, 1, 2] [0, 1, 2] 2 2 2
    (by decide) (by decide)

/-- Claim C5: the back-reference copy appends `length` bytes one at a
time, each equal to the byte `distance` positions before it in the final
buffer (so overlapping copies are correct); and concretely, decoding the
fixed-Huffman stream `8E 60 00 00` (literal `'A'`, then a back-reference
of length 5 at distance 1 resolved from the base tables plus extra bits,
then end-of-block) produces `"AAAAAA"`. -/
theorem c5_backreference_overlap_copy :
    (∀ (out : List Nat) (d L : Nat), 1 ≤ d → d ≤ out.length →
       ∃ res, Zlib.copyLoop out d L = some res ∧
         res.length = out.length + L ∧ List.IsPrefix out res ∧
         ∀ i, i < L → res.get? (out.length + i) = res.get? (out.length + i - d)) ∧
    (Zlib.inflate_block Zlib.fixed_literal_tree Zlib.fixed_distance_tree 100
        (Zlib.BitReader.init [0x8E, 0x60, 0x00, 0x00]) []).map Prod.fst =
      some [65, 65, 65, 65, 65, 65] :=
  ⟨fun out d L h1 h2 => Zlib.copyLoop_spec L out d h1 h2, rfl⟩

/-- Witness for C5: copying 5 bytes at distance 1 over the single byte
`'A'` succeeds and satisfies the overlap characterization. -/
theorem c5_backreference_overlap_copy_witness :
    ∃ res, Zlib.copyLoop [65] 1 5 = some res ∧
      res.length = 1 + 5 ∧ List.IsPrefix [65] res ∧
      ∀ i, i < 5 → res.get? (1 + i) = res.get? (1 + i - 1) :=
  c5_backreference_overlap_copy.1 [65] 1 5 (by decide) (by decide)

/-- Claim C7: in the dynamic-header parser, pseudo-symbol 16 repeats the
previous length `read_bits(2) + 3 ∈ [3,6]` times, 17 appends
`read_bits(3) + 3 ∈ [3,10]` zeros, 18 appends `read_bits(7) + 11 ∈ [11,138]`
zeros, and symbol 16 with no previously decoded length fails. -/
theorem c7_code_length_repeat_symbols :
    (∀ (r r1 : Zlib.BitReader) (bl : List Nat) (prev k : Nat),
       bl.getLast? = some prev → Zlib.read_bits r 2 = some (k, r1) →
       Zlib.clApply r bl 16 = some (bl ++ List.replicate (k + 3) prev, r1) ∧
         3 ≤ k + 3 ∧ k + 3 ≤ 6) ∧
    (∀ (r r1 : Zlib.BitReader) (bl : List Nat) (k : Nat),
       Zlib.read_bits r 3 = some (k, r1) →
       Zlib.clApply r bl 17 = some (bl ++ List.replicate (k + 3) 0, r1) ∧
         3 ≤ k + 3 ∧ k + 3 ≤ 10) ∧
    (∀ (r r1 : Zlib.BitReader) (bl : List Nat) (k : Nat),
       Zlib.read_bits r 7 = some (k, r1) →
       Zlib.clApply r bl 18 = some (bl ++ List.replicate (k + 11) 0, r1) ∧
         11 ≤ k + 11 ∧ k + 11 ≤ 138) ∧
    (∀ r : Zlib.BitReader, Zlib.clApply r [] 16 = none) := by
  refine ⟨?_, ?_, ?_, fun r => rfl⟩
  · intro r r1 bl prev k hlast hread
    have hk := Zlib.read_bits_lt r 2 k r1 hread
    unfold Zlib.clApply
    rw [if_neg (by omega), if_pos rfl, hlast, hread]
    exact ⟨rfl, by omega, by omega⟩
  · intro r r1 bl k hread
    have hk := Zlib.read_bits_lt r 3 k r1 hread
    unfold Zlib.clApply
    rw [if_neg (by omega), if_neg (by omega), if_pos rfl, hread]
    exact ⟨rfl, by omega, by omega⟩
  · intro r r1 bl k hread
    have hk := Zlib.read_bits_lt r 7 k r1 hread
    unfold Zlib.clApply
    rw [if_neg (by omega), if_neg (by omega)]
    rw [if_neg (by omega), if_pos rfl, hread]
    exact ⟨rfl, by omega, by omega⟩

/-- Witness for C7: after the reader delivers the two extra bits `11`
(value 3), symbol 16 over `bl = [7]` appends six copies of 7. -/
theorem c7_code_length_repeat_symbols_witness :
    Zlib.clApply (Zlib.BitReader.init [0xFF]) [7] 16 =
      some ([7, 7, 7, 7, 7, 7, 7], ⟨[0xFF], 1, 63, 6⟩) :=
  (c7_code_length_repeat_symbols.1 (Zlib.BitReader.init [0xFF])
    ⟨[0xFF], 1, 63, 6⟩ [7] 7 3 rfl rfl).1

/-- Claim C10: every element of the output list built by `inflate` is a
byte in `[0, 256)` — literals are `≤ 255` by the branch condition,
back-references copy existing elements, and stored blocks append only the
integer 0 — so the final `bytes(output)` conversion in `decompress` never
fails. -/
theorem c10_inflate_output_bytes (fuel : Nat) (r r1 : Zlib.BitReader)
    (out : List Nat) (h : Zlib.inflate fuel r = some (out, r1)) :
    (∀ x ∈ out, x < 256) ∧ Zlib.bytesOf out = some out := by
  have hbound : ∀ x ∈ out, x < 256 :=
    Zlib.inflateLoop_all_lt fuel r [] out r1 (by simp) h
  refine ⟨hbound, ?_⟩
  unfold Zlib.bytesOf
  rw [if_pos (List.all_eq_true.mpr (fun x hx => decide_eq_true (hbound x hx)))]

/-- Witness for C10 on a one-block stored stream: the output `[0]` is
in-range and survives the `bytes` conversion. -/
theorem c10_inflate_output_bytes_witness :
    (∀ x ∈ [0], x < 256) ∧ Zlib.bytesOf [0] = some [0] :=
  c10_inflate_output_bytes 10 (Zlib.BitReader.init [0x01])
    ⟨[0x01], 1, 0, 5⟩ [0] rfl

/-! ## Helper lemmas for the PNG layer: CRC-32 injectivity in one byte -/

namespace Png

/-- The CRC register stays a 32-bit value through a bit step. -/
theorem crcBitStep_lt {c : Nat} (hc : c < 2 ^ 32) : crcBitStep c < 2 ^ 32 := by
  unfold crcBitStep
  split
  · exact Nat.xor_lt_two_pow (by omega) (by norm_num)
  · omega

/-- A CRC bit step is injective on 32-bit values. -/
theorem crcBitStep_inj {c1 c2 : Nat} (h1 : c1 < 2 ^ 32) (h2 : c2 < 2 ^ 32)
    (h : crcBitStep c1 = crcBitStep c2) : c1 = c2 := by
  unfold crcBitStep at h
  have hp : (0xEDB88320 : Nat).testBit 31 = true := by decide
  split at h <;> split at h
  · -- both odd
    rename_i ho1 ho2
    have hhalf : c1 / 2 = c2 / 2 := by
      have := congrArg (fun x => x ^^^ 0xEDB88320) h
      simpa [Nat.xor_assoc] using this
    omega
  · -- c1 odd, c2 even: bit 31 differs
    rename_i ho1 ho2
    exfalso
    have hL : (c1 / 2 ^^^ 0xEDB88320).testBit 31 = true := by
      rw [Nat.testBit_xor, Nat.testBit_lt_two_pow (x := c1 / 2) (by omega), hp]
      rfl
    have hR : (c2 / 2).testBit 31 = false :=
      Nat.testBit_lt_two_pow (by omega)
    rw [h, hR] at hL
    exact Bool.noConfusion hL
  · -- c1 even, c2 odd
    rename_i ho1 ho2
    exfalso
    have hL : (c2 / 2 ^^^ 0xEDB88320).testBit 31 = true := by
      rw [Nat.testBit_xor, Nat.testBit_lt_two_pow (x := c2 / 2) (by omega), hp]
      rfl
    have hR : (c1 / 2).testBit 31 = false :=
      Nat.testBit_lt_two_pow (by omega)
    rw [← h, hR] at hL
    exact Bool.noConfusion hL
  · -- both even
    rename_i ho1 ho2
    omega

/-- 32-bit bound through `n` bit steps. -/
theorem crcBitSteps_lt : ∀ (n : Nat) {c : Nat}, c < 2 ^ 32 →
    crcBitSteps n c < 2 ^ 32
  | 0, _, hc => hc
  | n+1, c, hc => crcBitSteps_lt n (crcBitStep_lt hc)

/-- Injectivity of `n` bit steps on 32-bit values. -/
theorem crcBitSteps_inj : ∀ (n : Nat) {c1 c2 : Nat}, c1 < 2 ^ 32 →
    c2 < 2 ^ 32 → crcBitSteps n c1 = crcBitSteps n c2 → c1 = c2
  | 0, _, _, _, _, h => h
  | n+1, c1, c2, h1, h2, h =>
    crcBitStep_inj h1 h2
      (crcBitSteps_inj n (crcBitStep_lt h1) (crcBitStep_lt h2) h)

/-- 32-bit bound through a byte step. -/
theorem crcByteStep_lt {c b : Nat} (hc : c < 2 ^ 32) (hb : b < 2 ^ 32) :
    crcByteStep c b < 2 ^ 32 :=
  crcBitSteps_lt 8 (Nat.xor_lt_two_pow hc hb)

/-- A byte step is injective in the register for a fixed byte. -/
theorem crcByteStep_inj_state {c1 c2 b : Nat} (h1 : c1 < 2 ^ 32)
    (h2 : c2 < 2 ^ 32) (hb : b < 2 ^ 32)
    (h : crcByteStep c1 b = crcByteStep c2 b) : c1 = c2 := by
  have hx := crcBitSteps_inj 8 (Nat.xor_lt_two_pow h1 hb)
    (Nat.xor_lt_two_pow h2 hb) h
  have := congrArg (fun x => x ^^^ b) hx
  simpa [Nat.xor_assoc] using this

/-- A byte step separates distinct bytes for a fixed register. -/
theorem crcByteStep_inj_byte {c b1 b2 : Nat} (hc : c < 2 ^ 32)
    (hb1 : b1 < 2 ^ 32) (hb2 : b2 < 2 ^ 32) (hne : b1 ≠ b2) :
    crcByteStep c b1 ≠ crcByteStep c b2 := by
  intro h
  apply hne
  have hx := crcBitSteps_inj 8 (Nat.xor_lt_two_pow hc hb1)
    (Nat.xor_lt_two_pow hc hb2) h
  have := congrArg (fun x => c ^^^ x) hx
  simpa [← Nat.xor_assoc] using this

/-- 32-bit bound through the byte fold. -/
theorem crcFold_lt : ∀ (l : List Nat) (c : Nat), c < 2 ^ 32 →
    (∀ x ∈ l, x < 2 ^ 32) → l.foldl crcByteStep c < 2 ^ 32
  | [], c, hc, _ => hc
  | b :: l, c, hc, hl =>
    crcFold_lt l (crcByteStep c b)
      (crcByteStep_lt hc (hl b (List.mem_cons_self _ _)))
      (fun x hx => hl x (List.mem_cons_of_mem _ hx))

/-- Distinct registers stay distinct through the byte fold. -/
theorem crcFold_ne : ∀ (l : List Nat) (c1 c2 : Nat), c1 < 2 ^ 32 →
    c2 < 2 ^ 32 → (∀ x ∈ l, x < 2 ^ 32) → c1 ≠ c2 →
    l.foldl crcByteStep c1 ≠ l.foldl crcByteStep c2
  | [], _, _, _, _, _, hne => hne
  | b :: l, c1, c2, h1, h2, hl, hne => by
    have hb : b < 2 ^ 32 := hl b (List.mem_cons_self _ _)
    exact crcFold_ne l _ _ (crcByteStep_lt h1 hb) (crcByteStep_lt h2 hb)
      (fun x hx => hl x (List.mem_cons_of_mem _ hx))
      (fun h => hne (crcByteStep_inj_state h1 h2 hb h))

/-- Changing exactly one byte of a message always changes its CRC-32. -/
theorem crc32_single_byte_ne (pre suf : List Nat) (b1 b2 : Nat)
    (hpre : ∀ x ∈ pre, x < 2 ^ 32) (hsuf : ∀ x ∈ suf, x < 2 ^ 32)
    (hb1 : b1 < 2 ^ 32) (hb2 : b2 < 2 ^ 32) (hne : b1 ≠ b2) :
    crc32 (pre ++ b1 :: suf) ≠ crc32 (pre ++ b2 :: suf) := by
  unfold crc32
  intro h
  have hM : (0xFFFFFFFF : Nat) < 2 ^ 32 := by norm_num
  have hcore : (pre ++ b1 :: suf).foldl crcByteStep 0xFFFFFFFF =
      (pre ++ b2 :: suf).foldl crcByteStep 0xFFFFFFFF := by
    have := congrArg (fun x => x ^^^ 0xFFFFFFFF) h
    simpa [Nat.xor_assoc] using this
  rw [List.foldl_append, List.foldl_append] at hcore
  have hc : pre.foldl crcByteStep 0xFFFFFFFF < 2 ^ 32 := crcFold_lt pre _ hM hpre
  simp only [List.foldl_cons] at hcore
  exact crcFold_ne suf _ _
    (crcByteStep_lt hc hb1) (crcByteStep_lt hc hb2) hsuf
    (crcByteStep_inj_byte hc hb1 hb2 hne) hcore

end Png

namespace Png

/-- Setting a byte outside the sliced window leaves the slice unchanged. -/
theorem slice_set_outside (data : List Nat) (a n j b : Nat)
    (h : j < a ∨ a + n ≤ j) :
    slice (data.set j b) a n = slice data a n := by
  apply List.ext_getElem?
  intro m
  unfold slice
  rw [List.getElem?_take, List.getElem?_take]
  split
  · rename_i hm
    rw [List.getElem?_drop, List.getElem?_drop]
    rw [List.getElem?_set_ne (by omega)]
  · rfl

/-- Setting a byte inside the sliced window sets the corresponding byte
of the slice. -/
theorem slice_set_inside (data : List Nat) (a n j b : Nat)
    (ha : a ≤ j) (hn : j < a + n) (hj : j < data.length) :
    slice (data.set j b) a n = (slice data a n).set (j - a) b := by
  apply List.ext_getElem?
  intro m
  unfold slice
  rw [List.getElem?_set]
  by_cases hm : j - a = m
  · subst hm
    rw [List.getElem?_take, if_pos (by omega), List.getElem?_drop,
      List.getElem?_set, if_pos (by omega), if_pos (by omega)]
    have hlen : j - a < (List.take n (List.drop a data)).length := by
      rw [List.length_take, List.length_drop]
      omega
    rw [if_pos hlen, if_pos rfl]
  · rw [List.getElem?_take, List.getElem?_take]
    split
    · rw [List.getElem?_drop, List.getElem?_drop,
        List.getElem?_set_ne (by omega)]
    · rfl

end Png

/-- Claim C8: `read_chunk` raises a checksum error iff the stored
big-endian CRC differs from `crc32(tag ++ payload)`, and returns the
payload unchanged otherwise; and mutating any single payload byte of a
chunk that validates makes `read_chunk` raise, while the unmodified
chunk passes. -/
theorem c8_read_chunk_checksum :
    (∀ (data : List Nat) (id : Nat),
       (Png.read_chunk data id = none ↔
          Png.crc32 (Png.chunkTag data id ++ Png.chunkPayload data id) ≠
            Png.storedCrc data id) ∧
       ∀ p, Png.read_chunk data id = some p → p = Png.chunkPayload data id) ∧
    (∀ (data : List Nat) (id j b : Nat),
       (∀ x ∈ data, x < 256) → 4 ≤ id →
       id + 4 ≤ j → j < id + 4 + Png.chunkLen data id →
       id + 4 + Png.chunkLen data id + 4 ≤ data.length →
       b < 256 → data.get? j ≠ some b →
       Png.read_chunk data id = some (Png.chunkPayload data id) →
       Png.read_chunk (data.set j b) id = none) := by
  constructor
  · intro data id
    constructor
    · unfold Png.read_chunk
      split
      · rename_i hne
        exact ⟨fun _ => hne, fun _ => rfl⟩
      · rename_i hne
        constructor
        · intro h
          exact absurd h (by simp)
        · intro h
          exact absurd hne (fun _ => hne h)
    · intro p h
      unfold Png.read_chunk at h
      split at h
      · exact absurd h (by simp)
      · cases h
        rfl
  · intro data id j b hdata hid4 hjlo hjhi hfit hb256 hnewbyte hvalid
    set len := Png.chunkLen data id with hlendef
    have hjdata : j < data.length := by omega
    -- the length field, tag and stored CRC are untouched by the mutation
    have hlen' : Png.chunkLen (data.set j b) id = len := by
      unfold Png.chunkLen
      rw [Png.slice_set_outside data (id - 4) 4 j b (Or.inr (by omega))]
      exact hlendef.symm
    have htag' : Png.chunkTag (data.set j b) id = Png.chunkTag data id := by
      unfold Png.chunkTag
      rw [Png.slice_set_outside data id 4 j b (Or.inr (by omega))]
    have hstored' : Png.storedCrc (data.set j b) id = Png.storedCrc data id := by
      unfold Png.storedCrc
      rw [hlen']
      rw [Png.slice_set_outside data (id + 4 + len) 4 j b (Or.inl (by omega))]
    -- the payload gets its byte `j - (id+4)` set to `b`
    have hpay' : Png.chunkPayload (data.set j b) id =
        (Png.chunkPayload data id).set (j - (id + 4)) b := by
      unfold Png.chunkPayload
      rw [hlen']
      exact Png.slice_set_inside data (id + 4) len j b (by omega) (by omega)
        hjdata
    set payload := Png.chunkPayload data id with hpaydef
    set tag := Png.chunkTag data id with htagdef
    have hplen : payload.length = len := by
      rw [hpaydef]
      unfold Png.chunkPayload Png.slice
      rw [List.length_take, List.length_drop]
      omega
    set k := j - (id + 4) with hkdef
    have hk : k < payload.length := by omega
    -- the old byte at position j
    have hgetj : data[j]? = some data[j] := List.getElem?_eq_getElem hjdata
    have holdj : payload[k]? = some data[j] := by
      rw [hpaydef]
      unfold Png.chunkPayload Png.slice
      rw [List.getElem?_take, if_pos (by omega), List.getElem?_drop]
      have : id + 4 + k = j := by omega
      rw [this, hgetj]
    have hpayk : payload[k] = data[j] := by
      have := List.getElem?_eq_getElem hk
      rw [this] at holdj
      exact Option.some.injEq _ _ ▸ holdj
    have hbne : payload[k] ≠ b := by
      rw [hpayk]
      intro hcontra
      apply hnewbyte
      rw [List.get?_eq_getElem?, hgetj, hcontra]
    -- decompositions of the two messages around position k of the payload
    have hpdecomp : payload = payload.take k ++ payload[k] :: payload.drop (k+1) := by
      conv_lhs => rw [← List.take_append_drop k payload]
      rw [List.drop_eq_getElem_cons hk]
    have hsdecomp : payload.set k b = payload.take k ++ b :: payload.drop (k+1) := by
      rw [List.set_eq_take_append_cons_drop, if_pos hk]
    -- all message bytes are data bytes, hence 32-bit
    have hmemtag : ∀ x ∈ tag, x < 2 ^ 32 := by
      intro x hx
      have : x ∈ data :=
        List.mem_of_mem_drop (List.mem_of_mem_take (l := data.drop id) hx)
      have := hdata x this
      omega
    have hmempay : ∀ x ∈ payload, x < 2 ^ 32 := by
      intro x hx
      have : x ∈ data :=
        List.mem_of_mem_drop (List.mem_of_mem_take (l := data.drop (id + 4)) hx)
      have := hdata x this
      omega
    -- the two CRCs differ
    have hcrcne : Png.crc32 (tag ++ payload.set k b) ≠ Png.crc32 (tag ++ payload) := by
      rw [hsdecomp]
      conv_rhs => rw [hpdecomp]
      rw [← List.append_assoc, ← List.append_assoc]
      apply Png.crc32_single_byte_ne
      · intro x hx
        rcases List.mem_append.mp hx with hx | hx
        · exact hmemtag x hx
        · exact hmempay x (List.mem_of_mem_take hx)
      · intro x hx
        exact hmempay x (List.mem_of_mem_drop hx)
      · omega
      · have hmem : payload[k] ∈ payload := List.getElem_mem hk
        have := hmempay _ hmem
        omega
      · intro hcontra
        exact hbne hcontra.symm
    -- the original chunk validates: crc32(tag ++ payload) = stored CRC
    have hvalideq : Png.crc32 (tag ++ payload) = Png.storedCrc data id := by
      unfold Png.read_chunk at hvalid
      split at hvalid
      · exact absurd hvalid (by simp)
      · rename_i hcond
        exact Classical.byContradiction fun hne => hcond hne
    unfold Png.read_chunk
    rw [htag', hpay', hstored']
    rw [hvalideq] at hcrcne
    rw [if_pos hcrcne]

/-- Witness for C8: a valid one-byte-payload IDAT chunk passes, and
flipping its payload byte from 171 to 172 makes `read_chunk` raise. -/
theorem c8_read_chunk_checksum_witness :
    Png.read_chunk
      (([0, 0, 0, 1, 73, 68, 65, 84, 171, 105, 60, 7, 136] : List Nat).set 8 172)
      4 = none :=
  c8_read_chunk_checksum.2 [0, 0, 0, 1, 73, 68, 65, 84, 171, 105, 60, 7, 136]
    4 8 172 (by decide) (by decide) (by decide) (by decide) (by decide)
    (by decide) (by decide) (by decide)

namespace Png

/-- Spec-side per-byte reconstruction formula, written exactly as the
specification states it (to be compared with the source's `re_filter`):
`a`, `b`, `c0` are the already-reconstructed left, up and up-left
neighbor bytes (0 when out of bounds), and the five filter types give
`fx`, `fx+a`, `fx+b`, `fx+(a+b)/2`, `fx+paeth(a,b,c0)`, all modulo 256. -/
def specReconByte (l : List Nat) (stride bpp ft r c fx : Nat) : Nat :=
  let a := if bpp ≤ c then l.getD (r * stride + c - bpp) 0 else 0
  let b := if 0 < r then l.getD ((r - 1) * stride + c) 0 else 0
  let c0 := if 0 < r ∧ bpp ≤ c then l.getD ((r - 1) * stride + c - bpp) 0 else 0
  if ft = 0 then fx
  else if ft = 1 then (fx + a) % 256
  else if ft = 2 then (fx + b) % 256
  else if ft = 3 then (fx + (a + b) / 2) % 256
  else (fx + paeth_predictor a b c0) % 256

/-- `getD` lookups below the length of a list-prefix agree. -/
theorem prefix_getD {xs ys : List Nat} (h : List.IsPrefix xs ys) (n : Nat)
    (hn : n < xs.length) : ys.getD n 0 = xs.getD n 0 := by
  obtain ⟨t, rfl⟩ := h
  rw [List.getD_eq_getElem?_getD, List.getD_eq_getElem?_getD,
    List.getElem?_append, if_pos hn]

/-- The spec formula only looks below position `r*stride + c`, so it is
stable under extending the buffer. -/
theorem specReconByte_mono {xs ys : List Nat} (h : List.IsPrefix xs ys)
    (stride bpp ft r c fx : Nat) (hpos : r * stride + c < xs.length) :
    specReconByte ys stride bpp ft r c fx =
      specReconByte xs stride bpp ft r c fx := by
  have ha : r * stride + c - bpp < xs.length := by omega
  have hb : (r - 1) * stride + c < xs.length := by
    have : (r - 1) * stride ≤ r * stride := Nat.mul_le_mul_right _ (by omega)
    omega
  have hc0 : (r - 1) * stride + c - bpp < xs.length := by omega
  unfold specReconByte
  rw [prefix_getD h _ ha, prefix_getD h _ hb, prefix_getD h _ hc0]

/-- The per-cell correctness property of the final reconstruction buffer
`l`: the filter byte of row `r` exists and is a known filter type, the
filtered byte of cell `(r, c)` exists, and the reconstructed byte at
`r*stride + c` equals the spec formula evaluated on `l` itself. -/
def cellOK (idat : List Nat) (stride bpp : Nat) (l : List Nat)
    (r c : Nat) : Prop :=
  ∃ ft fx, idat.get? (r * (stride + 1)) = some ft ∧
    idat.get? (r * (stride + 1) + 1 + c) = some fx ∧ ft ≤ 4 ∧
    l.get? (r * stride + c) = some (specReconByte l stride bpp ft r c fx)

/-- `cellOK` persists when the buffer is extended. -/
theorem cellOK_mono {idat : List Nat} {stride bpp : Nat} {xs ys : List Nat}
    {r c : Nat} (h : cellOK idat stride bpp xs r c)
    (hpre : List.IsPrefix xs ys) : cellOK idat stride bpp ys r c := by
  obtain ⟨ft, fx, hft, hfx, hft4, hval⟩ := h
  have hpos : r * stride + c < xs.length := by
    rcases List.get?_eq_some.mp hval with ⟨hlt, _⟩
    exact hlt
  exact ⟨ft, fx, hft, hfx, hft4, by
    rw [Zlib.prefix_get? hpre _ hpos, hval,
      specReconByte_mono hpre stride bpp ft r c fx hpos]⟩

/-- A successful `filterCell` has a known filter type, and the appended
byte `v % 256` equals the spec formula on any extension of the buffer it
was computed from. -/
theorem filterCell_spec {recon : List Nat} {stride bpp ft r c fx v : Nat}
    (hfx : fx < 256) (h : filterCell recon stride bpp ft r c fx = some v) :
    ft ≤ 4 ∧ ∀ l', List.IsPrefix recon l' →
      v % 256 = specReconByte l' stride bpp ft r c fx := by
  have hgetD : ∀ (idx a : Nat), recon.get? idx = some a →
      ∀ l', List.IsPrefix recon l' → l'.getD idx 0 = a := by
    intro idx a hget l' hpre
    rcases List.get?_eq_some.mp hget with ⟨hlt, _⟩
    rw [List.getD_eq_getElem?_getD, ← List.get?_eq_getElem?,
      Zlib.prefix_get? hpre _ hlt, hget]
    rfl
  have haval : ∀ a, recon_a recon stride bpp r c = some a →
      ∀ l', List.IsPrefix recon l' →
        (if bpp ≤ c then l'.getD (r * stride + c - bpp) 0 else 0) = a := by
    intro a ha l' hpre
    unfold recon_a at ha
    split at ha
    · rename_i hbc
      rw [if_pos hbc]
      exact hgetD _ a ha l' hpre
    · rename_i hbc
      rw [if_neg hbc]
      exact (Option.some.injEq _ _ ▸ ha)
  have hbval : ∀ b, recon_b recon stride bpp r c = some b →
      ∀ l', List.IsPrefix recon l' →
        (if 0 < r then l'.getD ((r - 1) * stride + c) 0 else 0) = b := by
    intro b hb l' hpre
    unfold recon_b at hb
    split at hb
    · rename_i hr
      rw [if_pos hr]
      exact hgetD _ b hb l' hpre
    · rename_i hr
      rw [if_neg hr]
      exact (Option.some.injEq _ _ ▸ hb)
  have hcval : ∀ c0, recon_c recon stride bpp r c = some c0 →
      ∀ l', List.IsPrefix recon l' →
        (if 0 < r ∧ bpp ≤ c then l'.getD ((r - 1) * stride + c - bpp) 0 else 0) = c0 := by
    intro c0 hc0 l' hpre
    unfold recon_c at hc0
    split at hc0
    · rename_i hrc
      rw [if_pos hrc]
      exact hgetD _ c0 hc0 l' hpre
    · rename_i hrc
      rw [if_neg hrc]
      exact (Option.some.injEq _ _ ▸ hc0)
  unfold filterCell at h
  split at h
  · -- ft = 0
    rename_i h0
    cases h
    refine ⟨by omega, fun l' hpre => ?_⟩
    unfold specReconByte
    rw [if_pos h0, Nat.mod_eq_of_lt hfx]
  · split at h
    · -- ft = 1
      rename_i hne0 h1
      split at h
      · exact absurd h (by simp)
      · rename_i a ha
        cases h
        refine ⟨by omega, fun l' hpre => ?_⟩
        unfold specReconByte
        rw [if_neg hne0, if_pos h1, haval a ha l' hpre]
    · split at h
      · -- ft = 2
        rename_i hne0 hne1 h2
        split at h
        · exact absurd h (by simp)
        · rename_i b hb
          cases h
          refine ⟨by omega, fun l' hpre => ?_⟩
          unfold specReconByte
          rw [if_neg hne0, if_neg hne1, if_pos h2, hbval b hb l' hpre]
      · split at h
        · -- ft = 3
          rename_i hne0 hne1 hne2 h3
          split at h
          · rename_i a b ha hb
            cases h
            refine ⟨by omega, fun l' hpre => ?_⟩
            unfold specReconByte
            rw [if_neg hne0, if_neg hne1, if_neg hne2, if_pos h3,
              haval a ha l' hpre, hbval b hb l' hpre]
          · exact absurd h (by simp)
        · split at h
          · -- ft = 4
            rename_i hne0 hne1 hne2 hne3 h4
            split at h
            · rename_i a b c0 ha hb hc0
              cases h
              refine ⟨by omega, fun l' hpre => ?_⟩
              unfold specReconByte
              rw [if_neg hne0, if_neg hne1, if_neg hne2, if_neg hne3,
                haval a ha l' hpre, hbval b hb l' hpre, hcval c0 hc0 l' hpre]
            · exact absurd h (by simp)
          · exact absurd h (by simp)

end Png

namespace Png

/-- Shape and per-cell correctness of the inner column loop of
`re_filter`: it appends one byte per remaining column, advances the
input index in lockstep, and each appended byte satisfies `cellOK`. -/
theorem reFilterCols_char (idat : List Nat) (stride bpp ft r : Nat)
    (hidat : ∀ x ∈ idat, x < 256)
    (hft : idat.get? (r * (stride + 1)) = some ft) :
    ∀ (rem c : Nat) (recon : List Nat) (i : Nat) (recon1 : List Nat) (i1 : Nat),
      recon.length = r * stride + c →
      i = r * (stride + 1) + 1 + c →
      reFilterCols idat stride bpp ft r rem c recon i = some (recon1, i1) →
      recon1.length = recon.length + rem ∧ i1 = i + rem ∧
        List.IsPrefix recon recon1 ∧
        ∀ k, k < rem → cellOK idat stride bpp recon1 r (c + k)
  | 0, c, recon, i, recon1, i1, hlen, hi, h => by
    cases h
    exact ⟨by omega, by omega, List.prefix_rfl, fun k hk => absurd hk (by omega)⟩
  | rem+1, c, recon, i, recon1, i1, hlen, hi, h => by
    rw [reFilterCols] at h
    split at h
    · exact absurd h (by simp)
    · rename_i fx hfxget
      split at h
      · exact absurd h (by simp)
      · rename_i v hfc
        have hfx : fx < 256 := hidat fx (List.get?_mem hfxget)
        obtain ⟨hft4, hval⟩ := filterCell_spec hfx hfc
        have hlen2 : (recon ++ [v % 256]).length = r * stride + (c + 1) := by
          simp only [List.length_append, List.length_singleton]
          omega
        have hi2 : i + 1 = r * (stride + 1) + 1 + (c + 1) := by omega
        obtain ⟨hl1, hi1, hpre1, hcells⟩ :=
          reFilterCols_char idat stride bpp ft r hidat hft rem (c + 1)
            (recon ++ [v % 256]) (i + 1) recon1 i1 hlen2 hi2 h
        refine ⟨?_, by omega, ?_, ?_⟩
        · rw [hl1, hlen2]
          omega
        · exact (List.prefix_append recon [v % 256]).trans hpre1
        · intro k hk
          match k with
          | 0 =>
            refine ⟨ft, fx, hft, ?_, hft4, ?_⟩
            · rw [hi] at hfxget
              exact hfxget
            · show recon1.get? (r * stride + c) =
                some (Png.specReconByte recon1 stride bpp ft r c fx)
              have hpos : r * stride + c < (recon ++ [v % 256]).length := by
                omega
              rw [Zlib.prefix_get? hpre1 _ hpos]
              have hgv : (recon ++ [v % 256]).get? (r * stride + c) =
                  some (v % 256) := by
                rw [List.get?_eq_getElem?, List.getElem?_append,
                  if_neg (by omega)]
                have : r * stride + c - recon.length = 0 := by omega
                rw [this]
                rfl
              rw [hgv, hval recon1 ((List.prefix_append recon [v % 256]).trans hpre1)]
          | k'+1 =>
            have heq : c + (k' + 1) = (c + 1) + k' := by omega
            rw [heq]
            exact hcells k' (by omega)

/-- Shape and per-cell correctness of the row loop of `re_filter`. -/
theorem reFilterRows_char (idat : List Nat) (stride bpp : Nat)
    (hidat : ∀ x ∈ idat, x < 256) :
    ∀ (rows r : Nat) (recon : List Nat) (i : Nat) (recon1 : List Nat),
      recon.length = r * stride → i = r * (stride + 1) →
      (∀ r' c', r' < r → c' < stride → cellOK idat stride bpp recon r' c') →
      reFilterRows idat stride bpp rows r recon i = some recon1 →
      recon1.length = (r + rows) * stride ∧
      ∀ r' c', r' < r + rows → c' < stride → cellOK idat stride bpp recon1 r' c'
  | 0, r, recon, i, recon1, hlen, hi, hcells, h => by
    cases h
    exact ⟨by rw [hlen, Nat.add_zero], fun r' c' h1 h2 => hcells r' c' (by omega) h2⟩
  | rows+1, r, recon, i, recon1, hlen, hi, hcells, h => by
    rw [reFilterRows] at h
    split at h
    · exact absurd h (by simp)
    · rename_i ft hftget
      split at h
      · exact absurd h (by simp)
      · rename_i recon2 i2 hcols
        have hft : idat.get? (r * (stride + 1)) = some ft := by
          rw [← hi]
          exact hftget
        obtain ⟨hl2, hi2, hpre2, hrowcells⟩ :=
          reFilterCols_char idat stride bpp ft r hidat hft stride 0 recon
            (i + 1) recon2 i2 (by omega) (by omega) hcols
        have hmul1 : (r + 1) * stride = r * stride + stride := by
          rw [Nat.succ_mul]
        have hmul2 : (r + 1) * (stride + 1) = r * (stride + 1) + (stride + 1) := by
          rw [Nat.succ_mul]
        have hlen2 : recon2.length = (r + 1) * stride := by omega
        have hi2' : i2 = (r + 1) * (stride + 1) := by omega
        have hcells2 : ∀ r' c', r' < r + 1 → c' < stride →
            cellOK idat stride bpp recon2 r' c' := by
          intro r' c' h1 h2
          rcases Nat.lt_succ_iff_lt_or_eq.mp h1 with h1 | rfl
          · exact cellOK_mono (hcells r' c' h1 h2) hpre2
          · have := hrowcells c' h2
            simpa using this
        obtain ⟨hlf, hcf⟩ := reFilterRows_char idat stride bpp hidat rows
          (r + 1) recon2 i2 recon1 hlen2 hi2' hcells2 h
        refine ⟨?_, fun r' c' h1 h2 => hcf r' c' (by omega) h2⟩
        rw [hlf]
        congr 1
        omega

end Png

/-- Claim C6: when `re_filter` succeeds on idat bytes, it produces
`height * stride` bytes, every row's filter-type byte is one of 0..4
(anything else raises an invalid-filter error), and the byte at
`(r, c)` equals the spec formula: the filtered byte for type 0,
`+a` for 1, `+b` for 2, `+floor((a+b)/2)` for 3, `+paeth(a, b, c0)` for
4 (ties preferring `a`, then `b`, then `c0`), all modulo 256, with the
neighbors read from the reconstructed buffer and 0 out of bounds. -/
theorem c6_re_filter_matches_spec (width height bpp : Nat)
    (idat recon : List Nat) (hidat : ∀ x ∈ idat, x < 256)
    (h : Png.re_filter width height bpp idat = some recon) :
    recon.length = height * (width * bpp) ∧
    ∀ r c, r < height → c < width * bpp →
      ∃ ft fx, idat.get? (r * (width * bpp + 1)) = some ft ∧
        idat.get? (r * (width * bpp + 1) + 1 + c) = some fx ∧ ft ≤ 4 ∧
        recon.get? (r * (width * bpp) + c) =
          some (Png.specReconByte recon (width * bpp) bpp ft r c fx) := by
  unfold Png.re_filter at h
  obtain ⟨hlen, hcells⟩ := Png.reFilterRows_char idat (width * bpp) bpp hidat
    height 0 [] 0 recon (by simp) (by simp)
    (fun r' c' h1 _ => absurd h1 (by omega)) h
  refine ⟨by rw [hlen, Nat.zero_add], fun r c h1 h2 => hcells r c (by omega) h2⟩

/-- Witness for C6 on a hand-built 2×2 one-byte-per-pixel image using
filters Sub (row 0) and Up (row 1). -/
theorem c6_re_filter_matches_spec_witness :
    ([5, 255, 15, 19] : List Nat).length = 2 * (2 * 1) ∧
    ∀ r c, r < 2 → c < 2 * 1 →
      ∃ ft fx, ([1, 5, 250, 2, 10, 20] : List Nat).get? (r * (2 * 1 + 1)) = some ft ∧
        ([1, 5, 250, 2, 10, 20] : List Nat).get? (r * (2 * 1 + 1) + 1 + c) = some fx ∧
        ft ≤ 4 ∧
        ([5, 255, 15, 19] : List Nat).get? (r * (2 * 1) + c) =
          some (Png.specReconByte [5, 255, 15, 19] (2 * 1) 1 ft r c fx) :=
  c6_re_filter_matches_spec 2 2 1 [1, 5, 250, 2, 10, 20] [5, 255, 15, 19]
    (by decide) (by decide)

namespace Zlib

/-- A reader operation is prefix-stable when, on success, it leaves the
buffer unchanged, never moves the byte cursor backwards, and its result
depends only on the buffer prefix below the final cursor: swapping in any
buffer agreeing on that prefix reproduces the same result. -/
def PrefixStable {α : Type} (op : BitReader → Option (α × BitReader)) : Prop :=
  ∀ r x r', op r = some (x, r') →
    r'.mem = r.mem ∧ r.byte_pos ≤ r'.byte_pos ∧
    ∀ m2 : List Nat,
      List.take r'.byte_pos r.mem = List.take r'.byte_pos m2 →
      op { r with mem := m2 } = some (x, { r' with mem := m2 })

/-- Agreement on a long prefix restricts to agreement on a shorter one. -/
theorem take_mono_eq {m1 m2 : List Nat} {p1 p2 : Nat} (h : p1 ≤ p2)
    (heq : List.take p2 m1 = List.take p2 m2) :
    List.take p1 m1 = List.take p1 m2 := by
  have := congrArg (List.take p1) heq
  rwa [List.take_take, List.take_take, Nat.min_eq_left h] at this

/-- Sequencing two successful prefix-stable operations: combined buffer
preservation, cursor monotonicity, and joint transport. -/
theorem PrefixStable.chain {α β : Type}
    (op1 : BitReader → Option (α × BitReader))
    (op2 : α → BitReader → Option (β × BitReader))
    (h1 : PrefixStable op1) (h2 : ∀ a, PrefixStable (op2 a))
    {r : BitReader} {a : α} {r1 : BitReader} {b : β} {r2 : BitReader}
    (e1 : op1 r = some (a, r1)) (e2 : op2 a r1 = some (b, r2)) :
    r2.mem = r.mem ∧ r.byte_pos ≤ r2.byte_pos ∧
    ∀ m2 : List Nat,
      List.take r2.byte_pos r.mem = List.take r2.byte_pos m2 →
      op1 { r with mem := m2 } = some (a, { r1 with mem := m2 }) ∧
      op2 a { r1 with mem := m2 } = some (b, { r2 with mem := m2 }) := by
  obtain ⟨hm1, hp1, ht1⟩ := h1 r a r1 e1
  obtain ⟨hm2, hp2, ht2⟩ := h2 a r1 b r2 e2
  refine ⟨hm2.trans hm1, hp1.trans hp2, ?_⟩
  intro m2 hm
  have hm' : List.take r1.byte_pos r.mem = List.take r1.byte_pos m2 :=
    take_mono_eq hp2 hm
  refine ⟨ht1 m2 hm', ?_⟩
  apply ht2
  rw [hm1]
  exact hm

/-- `read_byte` is prefix-stable. -/
theorem ps_read_byte : PrefixStable read_byte := by
  intro r x r' h
  unfold read_byte at h
  cases hg : r.mem.get? r.byte_pos with
  | none => rw [hg] at h; exact absurd h (by simp)
  | some b =>
    rw [hg] at h
    cases h
    refine ⟨rfl, Nat.le_succ _, ?_⟩
    intro m2 hm
    have hb : m2.get? r.byte_pos = some x := by
      have h1 := congrArg (fun l => l.get? r.byte_pos) hm
      simp only [List.get?_eq_getElem?, List.getElem?_take,
        if_pos (Nat.lt_succ_self r.byte_pos)] at h1
      rw [List.get?_eq_getElem?, ← h1, ← List.get?_eq_getElem?]
      exact hg
    have hgoal : read_byte { r with mem := m2 } =
        match m2.get? r.byte_pos with
        | none => none
        | some b => some (b,
            { r with mem := m2, bit_pos := 0, byte_pos := r.byte_pos + 1 }) :=
      rfl
    rw [hgoal, hb]

/-- `read_bit` is prefix-stable. -/
theorem ps_read_bit : PrefixStable read_bit := by
  intro r x r' h
  unfold read_bit at h
  split at h
  · rename_i hbp
    cases hg : read_byte r with
    | none => rw [hg] at h; exact absurd h (by simp)
    | some q =>
      obtain ⟨b, r1⟩ := q
      rw [hg] at h
      cases h
      obtain ⟨hm1, hp1, ht1⟩ := ps_read_byte r b r1 hg
      refine ⟨hm1, hp1, ?_⟩
      intro m2 hm
      have hgoal : read_bit { r with mem := m2 } =
          (if r.bit_pos = 0 then
            (match read_byte { r with mem := m2 } with
             | none => none
             | some (b, r1) =>
               some (b % 2, { r1 with byte := b / 2, bit_pos := 7 }))
          else
            some (r.byte % 2,
              { r with
                  mem := m2,
                  byte := r.byte / 2,
                  bit_pos := r.bit_pos - 1 })) := rfl
      rw [hgoal, if_pos hbp, ht1 m2 hm]
  · rename_i hbp
    cases h
    refine ⟨rfl, Nat.le_refl _, ?_⟩
    intro m2 _
    have hgoal : read_bit { r with mem := m2 } =
        (if r.bit_pos = 0 then
          (match read_byte { r with mem := m2 } with
           | none => none
           | some (b, r1) =>
             some (b % 2, { r1 with byte := b / 2, bit_pos := 7 }))
        else
          some (r.byte % 2,
            { r with
                mem := m2,
                byte := r.byte / 2,
                bit_pos := r.bit_pos - 1 })) := rfl
    rw [hgoal, if_neg hbp]

/-- The `read_bits` loop is prefix-stable. -/
theorem ps_read_bitsAux :
    ∀ (n acc i : Nat), PrefixStable (fun r => read_bitsAux n r acc i)
  | 0, acc, i => by
    intro r x r' h
    cases h
    exact ⟨rfl, Nat.le_refl _, fun m2 _ => rfl⟩
  | n+1, acc, i => by
    intro r x r' h
    have hdef : ∀ rr, read_bitsAux (n+1) rr acc i =
        match read_bit rr with
        | none => none
        | some (b, r1) => read_bitsAux n r1 (acc ||| (b <<< i)) (i+1) :=
      fun _ => rfl
    have h' : read_bitsAux (n+1) r acc i = some (x, r') := h
    rw [hdef] at h'
    cases hg : read_bit r with
    | none => rw [hg] at h'; exact absurd h' (by simp)
    | some q =>
      obtain ⟨b, r1⟩ := q
      rw [hg] at h'
      obtain ⟨hm, hp, ht⟩ := PrefixStable.chain read_bit
        (fun a r => read_bitsAux n r (acc ||| (a <<< i)) (i+1))
        ps_read_bit (fun a => ps_read_bitsAux n (acc ||| (a <<< i)) (i+1))
        hg h'
      refine ⟨hm, hp, ?_⟩
      intro m2 hagree
      show read_bitsAux (n+1) { r with mem := m2 } acc i =
        some (x, { r' with mem := m2 })
      rw [hdef, (ht m2 hagree).1]
      exact (ht m2 hagree).2

/-- `read_bits` is prefix-stable. -/
theorem ps_read_bits (N : Nat) : PrefixStable (fun r => read_bits r N) :=
  ps_read_bitsAux N 0 0

/-- `read_bytes` is prefix-stable (it is a no-op). -/
theorem ps_read_bytes (N : Nat) : PrefixStable (fun r => read_bytes r N) := by
  intro r x r' h
  cases h
  exact ⟨rfl, Nat.le_refl _, fun m2 _ => rfl⟩

/-- The descend-on-one-bit continuation of `decode_symbol` is
prefix-stable when both children's decoders are. -/
theorem ps_decode_branch (l rt : Tree)
    (hl : PrefixStable (decode_symbol l)) (hr : PrefixStable (decode_symbol rt)) :
    ∀ a : Nat, PrefixStable
      (fun r => if a = 1 then decode_symbol rt r else decode_symbol l r) := by
  intro a rr xx rr' hh
  have hh' : (if a = 1 then decode_symbol rt rr else decode_symbol l rr) =
      some (xx, rr') := hh
  by_cases hc : a = 1
  · rw [if_pos hc] at hh'
    obtain ⟨hm, hp, ht⟩ := hr rr xx rr' hh'
    refine ⟨hm, hp, fun m2 hg => ?_⟩
    show (if a = 1 then decode_symbol rt { rr with mem := m2 }
      else decode_symbol l { rr with mem := m2 }) =
        some (xx, { rr' with mem := m2 })
    rw [if_pos hc]
    exact ht m2 hg
  · rw [if_neg hc] at hh'
    obtain ⟨hm, hp, ht⟩ := hl rr xx rr' hh'
    refine ⟨hm, hp, fun m2 hg => ?_⟩
    show (if a = 1 then decode_symbol rt { rr with mem := m2 }
      else decode_symbol l { rr with mem := m2 }) =
        some (xx, { rr' with mem := m2 })
    rw [if_neg hc]
    exact ht m2 hg

/-- `decode_symbol` is prefix-stable, by structural induction. -/
theorem ps_decode_symbol : ∀ t : Tree, PrefixStable (decode_symbol t)
  | Tree.nil => by
    intro r x r' h
    exact absurd h (by simp [decode_symbol])
  | Tree.mk s Tree.nil Tree.nil => by
    intro r x r' h
    cases h
    exact ⟨rfl, Nat.le_refl _, fun m2 _ => rfl⟩
  | Tree.mk s Tree.nil (Tree.mk s2 l2 r2) => by
    intro r x r' h
    have hdef : ∀ rr, decode_symbol (Tree.mk s Tree.nil (Tree.mk s2 l2 r2)) rr =
        match read_bit rr with
        | none => none
        | some (b, r1) =>
          if b = 1 then decode_symbol (Tree.mk s2 l2 r2) r1
          else decode_symbol Tree.nil r1 := fun _ => rfl
    rw [hdef] at h
    cases hg : read_bit r with
    | none => rw [hg] at h; exact absurd h (by simp)
    | some q =>
      obtain ⟨b, r1⟩ := q
      rw [hg] at h
      obtain ⟨hm, hp, ht⟩ := PrefixStable.chain read_bit
        (fun a r => if a = 1 then decode_symbol (Tree.mk s2 l2 r2) r
          else decode_symbol Tree.nil r)
        ps_read_bit
        (ps_decode_branch Tree.nil (Tree.mk s2 l2 r2)
          (ps_decode_symbol Tree.nil) (ps_decode_symbol (Tree.mk s2 l2 r2)))
        hg h
      refine ⟨hm, hp, ?_⟩
      intro m2 hagree
      rw [hdef, (ht m2 hagree).1]
      exact (ht m2 hagree).2
  | Tree.mk s (Tree.mk s2 l2 r2) rt => by
    intro r x r' h
    have hdef : ∀ rr, decode_symbol (Tree.mk s (Tree.mk s2 l2 r2) rt) rr =
        match read_bit rr with
        | none => none
        | some (b, r1) =>
          if b = 1 then decode_symbol rt r1
          else decode_symbol (Tree.mk s2 l2 r2) r1 := fun _ => rfl
    rw [hdef] at h
    cases hg : read_bit r with
    | none => rw [hg] at h; exact absurd h (by simp)
    | some q =>
      obtain ⟨b, r1⟩ := q
      rw [hg] at h
      obtain ⟨hm, hp, ht⟩ := PrefixStable.chain read_bit
        (fun a r => if a = 1 then decode_symbol rt r
          else decode_symbol (Tree.mk s2 l2 r2) r)
        ps_read_bit
        (ps_decode_branch (Tree.mk s2 l2 r2) rt
          (ps_decode_symbol (Tree.mk s2 l2 r2)) (ps_decode_symbol rt))
        hg h
      refine ⟨hm, hp, ?_⟩
      intro m2 hagree
      rw [hdef, (ht m2 hagree).1]
      exact (ht m2 hagree).2

end Zlib

namespace Zlib

/-- `resolveLength` is prefix-stable. -/
theorem ps_resolveLength (idx : Nat) :
    PrefixStable (fun r => resolveLength r idx) := by
  intro r x r' h
  have h' : resolveLength r idx = some (x, r') := h
  unfold resolveLength at h'
  cases hbase : SMALLEST_LENGTH.get? idx with
  | none => rw [hbase] at h'; exact Option.noConfusion h'
  | some base =>
    rw [hbase] at h'
    cases heb : EXTRA_BITS_LENGTH.get? idx with
    | none => rw [heb] at h'; exact Option.noConfusion h'
    | some eb =>
      rw [heb] at h'
      have h2 : (match read_bits r eb with
          | none => none
          | some (extra, r1) => some (base + extra, r1)) = some (x, r') := h'
      cases hg : read_bits r eb with
      | none => rw [hg] at h2; exact absurd h2 (by simp)
      | some q =>
        obtain ⟨extra, r1⟩ := q
        rw [hg] at h2
        cases h2
        obtain ⟨hm, hp, ht⟩ := ps_read_bits eb r _ _ hg
        refine ⟨hm, hp, ?_⟩
        intro m2 hagree
        show resolveLength { r with mem := m2 } idx = _
        have hred : resolveLength { r with mem := m2 } idx =
            (match read_bits { r with mem := m2 } eb with
             | none => none
             | some (extra, r1) => some (base + extra, r1)) := by
          unfold resolveLength
          rw [hbase, heb]
        have ht2 : read_bits { r with mem := m2 } eb =
            some (extra, { r' with mem := m2 }) := ht m2 hagree
        rw [hred, ht2]

/-- `resolveDistance` is prefix-stable. -/
theorem ps_resolveDistance (dsym : Nat) :
    PrefixStable (fun r => resolveDistance r dsym) := by
  intro r x r' h
  have h' : resolveDistance r dsym = some (x, r') := h
  unfold resolveDistance at h'
  cases hbase : SMALLEST_DISTANCE.get? dsym with
  | none => rw [hbase] at h'; exact Option.noConfusion h'
  | some base =>
    rw [hbase] at h'
    cases heb : EXTRA_BITS_DISTANCE.get? dsym with
    | none => rw [heb] at h'; exact Option.noConfusion h'
    | some eb =>
      rw [heb] at h'
      have h2 : (match read_bits r eb with
          | none => none
          | some (extra, r1) => some (base + extra, r1)) = some (x, r') := h'
      cases hg : read_bits r eb with
      | none => rw [hg] at h2; exact absurd h2 (by simp)
      | some q =>
        obtain ⟨extra, r1⟩ := q
        rw [hg] at h2
        cases h2
        obtain ⟨hm, hp, ht⟩ := ps_read_bits eb r _ _ hg
        refine ⟨hm, hp, ?_⟩
        intro m2 hagree
        show resolveDistance { r with mem := m2 } dsym = _
        have hred : resolveDistance { r with mem := m2 } dsym =
            (match read_bits { r with mem := m2 } eb with
             | none => none
             | some (extra, r1) => some (base + extra, r1)) := by
          unfold resolveDistance
          rw [hbase, heb]
        have ht2 : read_bits { r with mem := m2 } eb =
            some (extra, { r' with mem := m2 }) := ht m2 hagree
        rw [hred, ht2]

/-- The continuation of `backrefStep` after the copy length is known:
decode a distance symbol (a `none` symbol is a failure), resolve the
distance, and run the copy loop. -/
theorem ps_backref_after_length (dt : Tree) (out : List Nat) (length : Nat) :
    PrefixStable (fun r =>
      match decode_symbol dt r with
      | none => none
      | some (none, _) => none
      | some (some dsym, r3) =>
        match resolveDistance r3 dsym with
        | none => none
        | some (distance, r4) =>
          match copyLoop out distance length with
          | none => none
          | some out1 => some (out1, r4)) := by
  intro r x r' h
  have h' : (match decode_symbol dt r with
      | none => none
      | some (none, _) => none
      | some (some dsym, r3) =>
        match resolveDistance r3 dsym with
        | none => none
        | some (distance, r4) =>
          match copyLoop out distance length with
          | none => none
          | some out1 => some (out1, r4)) = some (x, r') := h
  cases hg : decode_symbol dt r with
  | none => rw [hg] at h'; exact absurd h' (by simp)
  | some q =>
    obtain ⟨osym, r3⟩ := q
    rw [hg] at h'
    cases osym with
    | none => exact absurd h' (by simp)
    | some dsym =>
      have h2 : (match resolveDistance r3 dsym with
          | none => none
          | some (distance, r4) =>
            match copyLoop out distance length with
            | none => none
            | some out1 => some (out1, r4)) = some (x, r') := h'
      cases hrd : resolveDistance r3 dsym with
      | none => rw [hrd] at h2; exact absurd h2 (by simp)
      | some q2 =>
        obtain ⟨distance, r4⟩ := q2
        rw [hrd] at h2
        have h3 : (match copyLoop out distance length with
            | none => none
            | some out1 => some (out1, r4)) = some (x, r') := h2
        cases hcp : copyLoop out distance length with
        | none => rw [hcp] at h3; exact absurd h3 (by simp)
        | some out1 =>
          rw [hcp] at h3
          cases h3
          obtain ⟨hm, hp, ht⟩ := PrefixStable.chain (decode_symbol dt)
            (fun os r => match os with
              | none => none
              | some dsym =>
                match resolveDistance r dsym with
                | none => none
                | some (distance, r4) =>
                  match copyLoop out distance length with
                  | none => none
                  | some out1 => some (out1, r4))
            (ps_decode_symbol dt)
            (fun os => by
              intro rr xx rr' hh
              cases os with
              | none => exact absurd hh (by simp)
              | some dsym2 =>
                have hh' : (match resolveDistance rr dsym2 with
                    | none => none
                    | some (distance, r4) =>
                      match copyLoop out distance length with
                      | none => none
                      | some out1 => some (out1, r4)) = some (xx, rr') := hh
                cases hrd2 : resolveDistance rr dsym2 with
                | none => rw [hrd2] at hh'; exact absurd hh' (by simp)
                | some q3 =>
                  obtain ⟨distance2, rr4⟩ := q3
                  rw [hrd2] at hh'
                  have hh2 : (match copyLoop out distance2 length with
                      | none => none
                      | some out1 => some (out1, rr4)) = some (xx, rr') := hh'
                  cases hcp2 : copyLoop out distance2 length with
                  | none => rw [hcp2] at hh2; exact absurd hh2 (by simp)
                  | some out2 =>
                    rw [hcp2] at hh2
                    cases hh2
                    obtain ⟨hm2, hp2, ht2⟩ := ps_resolveDistance dsym2 rr _ _ hrd2
                    refine ⟨hm2, hp2, ?_⟩
                    intro m2 hagree
                    show (match resolveDistance { rr with mem := m2 } dsym2 with
                        | none => none
                        | some (distance, r4) =>
                          match copyLoop out distance length with
                          | none => none
                          | some out1 => some (out1, r4)) = _
                    have ht3 : resolveDistance { rr with mem := m2 } dsym2 =
                        some (distance2, { rr' with mem := m2 }) :=
                      ht2 m2 hagree
                    rw [ht3]
                    show (match copyLoop out distance2 length with
                        | none => none
                        | some out1 =>
                          some (out1, { rr' with mem := m2 })) = _
                    rw [hcp2])
            hg (by
              show (match resolveDistance r3 dsym with
                  | none => none
                  | some (distance, r4) =>
                    match copyLoop out distance length with
                    | none => none
                    | some out1 => some (out1, r4)) = _
              rw [hrd]
              show (match copyLoop out distance length with
                  | none => none
                  | some out1 => some (out1, r')) = _
              rw [hcp])
          refine ⟨hm, hp, ?_⟩
          intro m2 hagree
          show (match decode_symbol dt { r with mem := m2 } with
              | none => none
              | some (none, _) => none
              | some (some dsym, r3) =>
                match resolveDistance r3 dsym with
                | none => none
                | some (distance, r4) =>
                  match copyLoop out distance length with
                  | none => none
                  | some out1 => some (out1, r4)) = _
          rw [(ht m2 hagree).1]
          exact (ht m2 hagree).2

end Zlib

namespace Zlib

/-- Post-processing the value of a prefix-stable operation with a pure
function preserves prefix stability. -/
theorem PrefixStable.post {α β : Type} (op : BitReader → Option (α × BitReader))
    (f : α → β) (h : PrefixStable op) :
    PrefixStable (fun r =>
      match op r with
      | none => none
      | some (a, r1) => some (f a, r1)) := by
  intro r x r' hh
  have hh' : (match op r with
      | none => none
      | some (a, r1) => some (f a, r1)) = some (x, r') := hh
  cases hg : op r with
  | none => rw [hg] at hh'; exact absurd hh' (by simp)
  | some q =>
    obtain ⟨a, r1⟩ := q
    rw [hg] at hh'
    cases hh'
    obtain ⟨hm, hp, ht⟩ := h r a _ hg
    refine ⟨hm, hp, fun m2 hagree => ?_⟩
    show (match op { r with mem := m2 } with
        | none => none
        | some (a, r1) => some (f a, r1)) = _
    rw [ht m2 hagree]

/-- `backrefStep` is prefix-stable. -/
theorem ps_backrefStep (dt : Tree) (out : List Nat) (symbol : Nat) :
    PrefixStable (fun r => backrefStep dt r out symbol) := by
  intro r x r' h
  have h' : backrefStep dt r out symbol = some (x, r') := h
  unfold backrefStep at h'
  cases hrl : resolveLength r (symbol - 257) with
  | none => rw [hrl] at h'; exact absurd h' (by simp)
  | some q =>
    obtain ⟨length, r2⟩ := q
    rw [hrl] at h'
    have h2 : (match decode_symbol dt r2 with
        | none => none
        | some (none, _) => none
        | some (some dsym, r3) =>
          match resolveDistance r3 dsym with
          | none => none
          | some (distance, r4) =>
            match copyLoop out distance length with
            | none => none
            | some out1 => some (out1, r4)) = some (x, r') := h'
    obtain ⟨hm, hp, ht⟩ := PrefixStable.chain
      (fun r => resolveLength r (symbol - 257))
      (fun length r =>
        match decode_symbol dt r with
        | none => none
        | some (none, _) => none
        | some (some dsym, r3) =>
          match resolveDistance r3 dsym with
          | none => none
          | some (distance, r4) =>
            match copyLoop out distance length with
            | none => none
            | some out1 => some (out1, r4))
      (ps_resolveLength (symbol - 257))
      (fun length => ps_backref_after_length dt out length)
      hrl h2
    refine ⟨hm, hp, ?_⟩
    intro m2 hagree
    show backrefStep dt { r with mem := m2 } out symbol = _
    unfold backrefStep
    have ht1 : resolveLength { r with mem := m2 } (symbol - 257) =
        some (length, { r2 with mem := m2 }) := (ht m2 hagree).1
    rw [ht1]
    exact (ht m2 hagree).2

/-- The literal / end-of-block / back-reference dispatch after a decoded
symbol is prefix-stable. -/
theorem ps_block_dispatch (dt : Tree) (out : List Nat) :
    ∀ os : Option Nat, PrefixStable (fun r =>
      match os with
      | none => none
      | some symbol =>
        if symbol ≤ 255 then some ((out ++ [symbol], false), r)
        else if symbol = 256 then some ((out, true), r)
        else
          match backrefStep dt r out symbol with
          | none => none
          | some (out1, r4) => some ((out1, false), r4)) := by
  intro os r x r' h
  cases os with
  | none => exact absurd h (by simp)
  | some symbol =>
    have h' : (if symbol ≤ 255 then some ((out ++ [symbol], false), r)
        else if symbol = 256 then some ((out, true), r)
        else
          match backrefStep dt r out symbol with
          | none => none
          | some (out1, r4) => some ((out1, false), r4)) = some (x, r') := h
    by_cases h255 : symbol ≤ 255
    · rw [if_pos h255] at h'
      cases h'
      refine ⟨rfl, Nat.le_refl _, fun m2 _ => ?_⟩
      show (if symbol ≤ 255 then some ((out ++ [symbol], false),
          ({ r with mem := m2 } : BitReader))
        else if symbol = 256 then some ((out, true), { r with mem := m2 })
        else
          match backrefStep dt { r with mem := m2 } out symbol with
          | none => none
          | some (out1, r4) => some ((out1, false), r4)) = _
      rw [if_pos h255]
    · rw [if_neg h255] at h'
      by_cases h256 : symbol = 256
      · rw [if_pos h256] at h'
        cases h'
        refine ⟨rfl, Nat.le_refl _, fun m2 _ => ?_⟩
        show (if symbol ≤ 255 then some ((out ++ [symbol], false),
            ({ r with mem := m2 } : BitReader))
          else if symbol = 256 then some ((out, true), { r with mem := m2 })
          else
            match backrefStep dt { r with mem := m2 } out symbol with
            | none => none
            | some (out1, r4) => some ((out1, false), r4)) = _
        rw [if_neg h255, if_pos h256]
      · rw [if_neg h256] at h'
        cases hbr : backrefStep dt r out symbol with
        | none => rw [hbr] at h'; exact absurd h' (by simp)
        | some q2 =>
          obtain ⟨out1, r4⟩ := q2
          rw [hbr] at h'
          cases h'
          obtain ⟨hm, hp, ht⟩ := ps_backrefStep dt out symbol r out1 _ hbr
          refine ⟨hm, hp, fun m2 hagree => ?_⟩
          show (if symbol ≤ 255 then some ((out ++ [symbol], false),
              ({ r with mem := m2 } : BitReader))
            else if symbol = 256 then some ((out, true), { r with mem := m2 })
            else
              match backrefStep dt { r with mem := m2 } out symbol with
              | none => none
              | some (out1, r4) => some ((out1, false), r4)) = _
          rw [if_neg h255, if_neg h256]
          have ht2 : backrefStep dt { r with mem := m2 } out symbol =
              some (out1, { r' with mem := m2 }) := ht m2 hagree
          rw [ht2]

/-- `inflate_block_step` is prefix-stable. -/
theorem ps_inflate_block_step (lt dt : Tree) (out : List Nat) :
    PrefixStable (fun r => inflate_block_step lt dt r out) := by
  intro r x r' h
  have h' : inflate_block_step lt dt r out = some (x, r') := h
  unfold inflate_block_step at h'
  cases hg : decode_symbol lt r with
  | none => rw [hg] at h'; exact absurd h' (by simp)
  | some q =>
    obtain ⟨os, r1⟩ := q
    rw [hg] at h'
    cases os with
    | none => exact Option.noConfusion h'
    | some symbol =>
      have h2 : (if symbol ≤ 255 then some ((out ++ [symbol], false), r1)
          else if symbol = 256 then some ((out, true), r1)
          else
            match backrefStep dt r1 out symbol with
            | none => none
            | some (out1, r4) => some ((out1, false), r4)) = some (x, r') := h'
      obtain ⟨hm1, hp1, ht1⟩ := ps_decode_symbol lt r _ _ hg
      obtain ⟨hm2, hp2, ht2⟩ := ps_block_dispatch dt out (some symbol) r1 x r' h2
      refine ⟨hm2.trans hm1, hp1.trans hp2, ?_⟩
      intro m2 hagree
      have hagree1 : List.take r1.byte_pos r.mem = List.take r1.byte_pos m2 :=
        take_mono_eq hp2 hagree
      have hagree2 : List.take r'.byte_pos r1.mem = List.take r'.byte_pos m2 := by
        rw [hm1]
        exact hagree
      show inflate_block_step lt dt { r with mem := m2 } out = _
      unfold inflate_block_step
      rw [ht1 m2 hagree1]
      exact ht2 m2 hagree2

/-- `inflate_block_no_compression` is prefix-stable (it reads nothing). -/
theorem ps_inflate_block_no_compression (out : List Nat) :
    PrefixStable (fun r => inflate_block_no_compression r out) := by
  intro r x r' h
  have h' : inflate_block_no_compression r out = some (x, r') := h
  rw [inflate_block_no_compression_eq] at h'
  cases h'
  refine ⟨rfl, Nat.le_refl _, fun m2 _ => ?_⟩
  show inflate_block_no_compression { r with mem := m2 } out = _
  rw [inflate_block_no_compression_eq]

/-- The block-decoder loop `inflate_block` is prefix-stable. -/
theorem ps_inflate_block (lt dt : Tree) :
    ∀ (fuel : Nat) (out : List Nat),
      PrefixStable (fun r => inflate_block lt dt fuel r out)
  | 0, out => by
    intro r x r' h
    exact absurd h (by simp [inflate_block])
  | fuel+1, out => by
    intro r x r' h
    have hdef : ∀ rr, inflate_block lt dt (fuel+1) rr out =
        match inflate_block_step lt dt rr out with
        | none => none
        | some ((out1, true), r1) => some (out1, r1)
        | some ((out1, false), r1) => inflate_block lt dt fuel r1 out1 :=
      fun _ => rfl
    have h' : inflate_block lt dt (fuel+1) r out = some (x, r') := h
    rw [hdef] at h'
    cases hg : inflate_block_step lt dt r out with
    | none => rw [hg] at h'; exact absurd h' (by simp)
    | some q =>
      obtain ⟨⟨out1, flag⟩, r1⟩ := q
      rw [hg] at h'
      obtain ⟨hm1, hp1, ht1⟩ := ps_inflate_block_step lt dt out r _ _ hg
      cases flag with
      | true =>
        have h2 : some (out1, r1) = some (x, r') := h'
        cases h2
        refine ⟨hm1, hp1, ?_⟩
        intro m2 hagree
        show inflate_block lt dt (fuel+1) { r with mem := m2 } out = _
        rw [hdef]
        have ht1' : inflate_block_step lt dt { r with mem := m2 } out =
            some ((x, true), { r' with mem := m2 }) := ht1 m2 hagree
        rw [ht1']
      | false =>
        have h2 : inflate_block lt dt fuel r1 out1 = some (x, r') := h'
        obtain ⟨hm2, hp2, ht2⟩ := ps_inflate_block lt dt fuel out1 r1 x r' h2
        refine ⟨hm2.trans hm1, hp1.trans hp2, ?_⟩
        intro m2 hagree
        have hagree1 : List.take r1.byte_pos r.mem = List.take r1.byte_pos m2 :=
          take_mono_eq hp2 hagree
        have hagree2 : List.take r'.byte_pos r1.mem = List.take r'.byte_pos m2 := by
          rw [hm1]
          exact hagree
        show inflate_block lt dt (fuel+1) { r with mem := m2 } out = _
        rw [hdef]
        have ht1' : inflate_block_step lt dt { r with mem := m2 } out =
            some ((out1, false), { r1 with mem := m2 }) := ht1 m2 hagree1
        rw [ht1']
        exact ht2 m2 hagree2

end Zlib

namespace Zlib

/-- `clApply` is prefix-stable. -/
theorem ps_clApply (bl : List Nat) (s : Nat) :
    PrefixStable (fun r => clApply r bl s) := by
  intro r x r' h
  have h' : clApply r bl s = some (x, r') := h
  unfold clApply at h'
  by_cases h15 : s ≤ 15
  · rw [if_pos h15] at h'
    cases h'
    refine ⟨rfl, Nat.le_refl _, fun m2 _ => ?_⟩
    show clApply { r with mem := m2 } bl s = _
    unfold clApply
    rw [if_pos h15]
  · rw [if_neg h15] at h'
    by_cases h16 : s = 16
    · rw [if_pos h16] at h'
      cases hlast : bl.getLast? with
      | none => rw [hlast] at h'; exact absurd h' (by simp)
      | some prev =>
        rw [hlast] at h'
        have h2 : (match read_bits r 2 with
            | none => none
            | some (k, r1) => some (bl ++ List.replicate (k + 3) prev, r1)) =
            some (x, r') := h'
        cases hg : read_bits r 2 with
        | none => rw [hg] at h2; exact absurd h2 (by simp)
        | some q =>
          obtain ⟨k, r1⟩ := q
          rw [hg] at h2
          cases h2
          obtain ⟨hm, hp, ht⟩ := ps_read_bits 2 r _ _ hg
          refine ⟨hm, hp, fun m2 hagree => ?_⟩
          show clApply { r with mem := m2 } bl s = _
          unfold clApply
          rw [if_neg h15, if_pos h16, hlast]
          have ht' : read_bits { r with mem := m2 } 2 =
              some (k, { r' with mem := m2 }) := ht m2 hagree
          show (match read_bits { r with mem := m2 } 2 with
              | none => none
              | some (k, r1) =>
                some (bl ++ List.replicate (k + 3) prev, r1)) = _
          rw [ht']
    · rw [if_neg h16] at h'
      by_cases h17 : s = 17
      · rw [if_pos h17] at h'
        cases hg : read_bits r 3 with
        | none => rw [hg] at h'; exact absurd h' (by simp)
        | some q =>
          obtain ⟨k, r1⟩ := q
          rw [hg] at h'
          cases h'
          obtain ⟨hm, hp, ht⟩ := ps_read_bits 3 r _ _ hg
          refine ⟨hm, hp, fun m2 hagree => ?_⟩
          show clApply { r with mem := m2 } bl s = _
          unfold clApply
          rw [if_neg h15, if_neg h16, if_pos h17]
          have ht' : read_bits { r with mem := m2 } 3 =
              some (k, { r' with mem := m2 }) := ht m2 hagree
          rw [ht']
      · rw [if_neg h17] at h'
        by_cases h18 : s = 18
        · rw [if_pos h18] at h'
          cases hg : read_bits r 7 with
          | none => rw [hg] at h'; exact absurd h' (by simp)
          | some q =>
            obtain ⟨k, r1⟩ := q
            rw [hg] at h'
            cases h'
            obtain ⟨hm, hp, ht⟩ := ps_read_bits 7 r _ _ hg
            refine ⟨hm, hp, fun m2 hagree => ?_⟩
            show clApply { r with mem := m2 } bl s = _
            unfold clApply
            rw [if_neg h15, if_neg h16, if_neg h17, if_pos h18]
            have ht' : read_bits { r with mem := m2 } 7 =
                some (k, { r' with mem := m2 }) := ht m2 hagree
            rw [ht']
        · rw [if_neg h18] at h'
          cases h'
          refine ⟨rfl, Nat.le_refl _, fun m2 _ => ?_⟩
          show clApply { r with mem := m2 } bl s = _
          unfold clApply
          rw [if_neg h15, if_neg h16, if_neg h17, if_neg h18]

/-- The `HCLEN` scatter loop is prefix-stable. -/
theorem ps_readClenLoop :
    ∀ (n k : Nat) (arr : List Nat),
      PrefixStable (fun r => readClenLoop n k r arr)
  | 0, k, arr => by
    intro r x r' h
    cases h
    exact ⟨rfl, Nat.le_refl _, fun m2 _ => rfl⟩
  | n+1, k, arr => by
    intro r x r' h
    have hdef : ∀ rr, readClenLoop (n+1) k rr arr =
        match CLEN_CODE_ORDER.get? k with
        | none => none
        | some idx =>
          match read_bits rr 3 with
          | none => none
          | some (v, r1) => readClenLoop n (k+1) r1 (arr.set idx v) :=
      fun _ => rfl
    have h' : readClenLoop (n+1) k r arr = some (x, r') := h
    rw [hdef] at h'
    cases hidx : CLEN_CODE_ORDER.get? k with
    | none => rw [hidx] at h'; exact absurd h' (by simp)
    | some idx =>
      rw [hidx] at h'
      have h2 : (match read_bits r 3 with
          | none => none
          | some (v, r1) => readClenLoop n (k+1) r1 (arr.set idx v)) =
          some (x, r') := h'
      cases hg : read_bits r 3 with
      | none => rw [hg] at h2; exact absurd h2 (by simp)
      | some q =>
        obtain ⟨v, r1⟩ := q
        rw [hg] at h2
        obtain ⟨hm1, hp1, ht1⟩ := ps_read_bits 3 r _ _ hg
        obtain ⟨hm2, hp2, ht2⟩ :=
          ps_readClenLoop n (k+1) (arr.set idx v) r1 x r' h2
        refine ⟨hm2.trans hm1, hp1.trans hp2, ?_⟩
        intro m2 hagree
        have hagree1 : List.take r1.byte_pos r.mem = List.take r1.byte_pos m2 :=
          take_mono_eq hp2 hagree
        have hagree2 : List.take r'.byte_pos r1.mem = List.take r'.byte_pos m2 := by
          rw [hm1]
          exact hagree
        show readClenLoop (n+1) k { r with mem := m2 } arr = _
        rw [hdef, hidx]
        have ht1' : read_bits { r with mem := m2 } 3 =
            some (v, { r1 with mem := m2 }) := ht1 m2 hagree1
        show (match read_bits { r with mem := m2 } 3 with
            | none => none
            | some (v, r1) => readClenLoop n (k+1) r1 (arr.set idx v)) = _
        rw [ht1']
        exact ht2 m2 hagree2

/-- The code-length reading loop of `preprocessing` is prefix-stable. -/
theorem ps_readCodeLengths (tree : Tree) (target : Nat) :
    ∀ (fuel : Nat) (bl : List Nat),
      PrefixStable (fun r => readCodeLengths tree target fuel r bl)
  | 0, bl => by
    intro r x r' h
    exact absurd h (by simp [readCodeLengths])
  | fuel+1, bl => by
    intro r x r' h
    have hdef : ∀ rr, readCodeLengths tree target (fuel+1) rr bl =
        (if target ≤ bl.length then some (bl, rr)
         else
           match decode_symbol tree rr with
           | none => none
           | some (none, _) => none
           | some (some s, r1) =>
             match clApply r1 bl s with
             | none => none
             | some (bl1, r2) => readCodeLengths tree target fuel r2 bl1) :=
      fun _ => rfl
    have h' : readCodeLengths tree target (fuel+1) r bl = some (x, r') := h
    rw [hdef] at h'
    by_cases hdone : target ≤ bl.length
    · rw [if_pos hdone] at h'
      cases h'
      refine ⟨rfl, Nat.le_refl _, fun m2 _ => ?_⟩
      show readCodeLengths tree target (fuel+1) { r with mem := m2 } bl = _
      rw [hdef, if_pos hdone]
    · rw [if_neg hdone] at h'
      cases hg : decode_symbol tree r with
      | none => rw [hg] at h'; exact absurd h' (by simp)
      | some q =>
        obtain ⟨os, r1⟩ := q
        rw [hg] at h'
        cases os with
        | none => exact Option.noConfusion h'
        | some s =>
          have h2 : (match clApply r1 bl s with
              | none => none
              | some (bl1, r2) => readCodeLengths tree target fuel r2 bl1) =
              some (x, r') := h'
          cases hca : clApply r1 bl s with
          | none => rw [hca] at h2; exact absurd h2 (by simp)
          | some q2 =>
            obtain ⟨bl1, r2⟩ := q2
            rw [hca] at h2
            obtain ⟨hm1, hp1, ht1⟩ := ps_decode_symbol tree r _ _ hg
            obtain ⟨hm2, hp2, ht2⟩ := ps_clApply bl s r1 _ _ hca
            obtain ⟨hm3, hp3, ht3⟩ :=
              ps_readCodeLengths tree target fuel bl1 r2 x r' h2
            refine ⟨hm3.trans (hm2.trans hm1),
              hp1.trans (hp2.trans hp3), ?_⟩
            intro m2 hagree
            have hagree2 : List.take r2.byte_pos r.mem =
                List.take r2.byte_pos m2 := take_mono_eq hp3 hagree
            have hagree1 : List.take r1.byte_pos r.mem =
                List.take r1.byte_pos m2 := take_mono_eq hp2 hagree2
            have hagreeB : List.take r2.byte_pos r1.mem =
                List.take r2.byte_pos m2 := by
              rw [hm1]
              exact hagree2
            have hagreeC : List.take r'.byte_pos r2.mem =
                List.take r'.byte_pos m2 := by
              rw [hm2, hm1]
              exact hagree
            show readCodeLengths tree target (fuel+1) { r with mem := m2 } bl = _
            rw [hdef, if_neg hdone, ht1 m2 hagree1]
            have ht2' : clApply { r1 with mem := m2 } bl s =
                some ((bl1, r2).1, { r2 with mem := m2 }) := ht2 m2 hagreeB
            show (match clApply { r1 with mem := m2 } bl s with
                | none => none
                | some (bl1, r2) => readCodeLengths tree target fuel r2 bl1) = _
            rw [ht2']
            exact ht3 m2 hagreeC

end Zlib

namespace Zlib

/-- `preprocessing` is prefix-stable. -/
theorem ps_preprocessing (fuel : Nat) :
    PrefixStable (fun r => preprocessing fuel r) := by
  intro r x r' h
  have hdef : ∀ rr, preprocessing fuel rr =
      match read_bits rr 5 with
      | none => none
      | some (hlitRaw, r1) =>
        match read_bits r1 5 with
        | none => none
        | some (hdistRaw, r2) =>
          match read_bits r2 4 with
          | none => none
          | some (hclenRaw, r3) =>
            match readClenLoop (hclenRaw + 4) 0 r3 (List.replicate 19 0) with
            | none => none
            | some (code_length_bl, r4) =>
              match readCodeLengths
                  (build_tree code_length_bl (List.range 19))
                  ((hlitRaw + 257) + (hdistRaw + 1)) fuel r4 [] with
              | none => none
              | some (bl, r5) =>
                some ((build_tree (bl.take (hlitRaw + 257)) (List.range 286),
                       build_tree (bl.drop (hlitRaw + 257)) (List.range 30)),
                  r5) :=
    fun _ => rfl
  have h' : preprocessing fuel r = some (x, r') := h
  rw [hdef] at h'
  cases hg1 : read_bits r 5 with
  | none => rw [hg1] at h'; exact absurd h' (by simp)
  | some q1 =>
    obtain ⟨hlitRaw, r1⟩ := q1
    rw [hg1] at h'
    have hA : (match read_bits r1 5 with
        | none => none
        | some (hdistRaw, r2) =>
          match read_bits r2 4 with
          | none => none
          | some (hclenRaw, r3) =>
            match readClenLoop (hclenRaw + 4) 0 r3 (List.replicate 19 0) with
            | none => none
            | some (code_length_bl, r4) =>
              match readCodeLengths
                  (build_tree code_length_bl (List.range 19))
                  ((hlitRaw + 257) + (hdistRaw + 1)) fuel r4 [] with
              | none => none
              | some (bl, r5) =>
                some ((build_tree (bl.take (hlitRaw + 257)) (List.range 286),
                       build_tree (bl.drop (hlitRaw + 257)) (List.range 30)),
                  r5)) = some (x, r') := h'
    cases hg2 : read_bits r1 5 with
    | none => rw [hg2] at hA; exact absurd hA (by simp)
    | some q2 =>
      obtain ⟨hdistRaw, r2⟩ := q2
      rw [hg2] at hA
      have hB : (match read_bits r2 4 with
          | none => none
          | some (hclenRaw, r3) =>
            match readClenLoop (hclenRaw + 4) 0 r3 (List.replicate 19 0) with
            | none => none
            | some (code_length_bl, r4) =>
              match readCodeLengths
                  (build_tree code_length_bl (List.range 19))
                  ((hlitRaw + 257) + (hdistRaw + 1)) fuel r4 [] with
              | none => none
              | some (bl, r5) =>
                some ((build_tree (bl.take (hlitRaw + 257)) (List.range 286),
                       build_tree (bl.drop (hlitRaw + 257)) (List.range 30)),
                  r5)) = some (x, r') := hA
      cases hg3 : read_bits r2 4 with
      | none => rw [hg3] at hB; exact absurd hB (by simp)
      | some q3 =>
        obtain ⟨hclenRaw, r3⟩ := q3
        rw [hg3] at hB
        have hC : (match readClenLoop (hclenRaw + 4) 0 r3
              (List.replicate 19 0) with
            | none => none
            | some (code_length_bl, r4) =>
              match readCodeLengths
                  (build_tree code_length_bl (List.range 19))
                  ((hlitRaw + 257) + (hdistRaw + 1)) fuel r4 [] with
              | none => none
              | some (bl, r5) =>
                some ((build_tree (bl.take (hlitRaw + 257)) (List.range 286),
                       build_tree (bl.drop (hlitRaw + 257)) (List.range 30)),
                  r5)) = some (x, r') := hB
        cases hg4 : readClenLoop (hclenRaw + 4) 0 r3 (List.replicate 19 0) with
        | none => rw [hg4] at hC; exact absurd hC (by simp)
        | some q4 =>
          obtain ⟨code_length_bl, r4⟩ := q4
          rw [hg4] at hC
          have hD : (match readCodeLengths
                (build_tree code_length_bl (List.range 19))
                ((hlitRaw + 257) + (hdistRaw + 1)) fuel r4 [] with
              | none => none
              | some (bl, r5) =>
                some ((build_tree (bl.take (hlitRaw + 257)) (List.range 286),
                       build_tree (bl.drop (hlitRaw + 257)) (List.range 30)),
                  r5)) = some (x, r') := hC
          cases hg5 : readCodeLengths (build_tree code_length_bl (List.range 19))
              ((hlitRaw + 257) + (hdistRaw + 1)) fuel r4 [] with
          | none => rw [hg5] at hD; exact absurd hD (by simp)
          | some q5 =>
            obtain ⟨bl, r5⟩ := q5
            rw [hg5] at hD
            cases hD
            obtain ⟨hm1, hp1, ht1⟩ := ps_read_bits 5 r _ _ hg1
            obtain ⟨hm2, hp2, ht2⟩ := ps_read_bits 5 r1 _ _ hg2
            obtain ⟨hm3, hp3, ht3⟩ := ps_read_bits 4 r2 _ _ hg3
            obtain ⟨hm4, hp4, ht4⟩ :=
              ps_readClenLoop (hclenRaw + 4) 0 (List.replicate 19 0) r3 _ _ hg4
            obtain ⟨hm5, hp5, ht5⟩ :=
              ps_readCodeLengths (build_tree code_length_bl (List.range 19))
                ((hlitRaw + 257) + (hdistRaw + 1)) fuel [] r4 _ _ hg5
            refine ⟨hm5.trans (hm4.trans (hm3.trans (hm2.trans hm1))),
              hp1.trans (hp2.trans (hp3.trans (hp4.trans hp5))), ?_⟩
            intro m2 hagree
            have ha4 : List.take r4.byte_pos r.mem = List.take r4.byte_pos m2 :=
              take_mono_eq hp5 hagree
            have ha3 : List.take r3.byte_pos r.mem = List.take r3.byte_pos m2 :=
              take_mono_eq hp4 ha4
            have ha2 : List.take r2.byte_pos r.mem = List.take r2.byte_pos m2 :=
              take_mono_eq hp3 ha3
            have ha1 : List.take r1.byte_pos r.mem = List.take r1.byte_pos m2 :=
              take_mono_eq hp2 ha2
            have hb2 : List.take r2.byte_pos r1.mem = List.take r2.byte_pos m2 := by
              rw [hm1]; exact ha2
            have hb3 : List.take r3.byte_pos r2.mem = List.take r3.byte_pos m2 := by
              rw [hm2, hm1]; exact ha3
            have hb4 : List.take r4.byte_pos r3.mem = List.take r4.byte_pos m2 := by
              rw [hm3, hm2, hm1]; exact ha4
            have hb5 : List.take r'.byte_pos r4.mem = List.take r'.byte_pos m2 := by
              rw [hm4, hm3, hm2, hm1]; exact hagree
            show preprocessing fuel { r with mem := m2 } = _
            rw [hdef]
            have e1 : read_bits { r with mem := m2 } 5 =
                some (hlitRaw, { r1 with mem := m2 }) := ht1 m2 ha1
            have e2 : read_bits { r1 with mem := m2 } 5 =
                some (hdistRaw, { r2 with mem := m2 }) := ht2 m2 hb2
            have e3 : read_bits { r2 with mem := m2 } 4 =
                some (hclenRaw, { r3 with mem := m2 }) := ht3 m2 hb3
            have e4 : readClenLoop (hclenRaw + 4) 0 { r3 with mem := m2 }
                (List.replicate 19 0) =
                some (code_length_bl, { r4 with mem := m2 }) := ht4 m2 hb4
            have e5 : readCodeLengths (build_tree code_length_bl (List.range 19))
                ((hlitRaw + 257) + (hdistRaw + 1)) fuel { r4 with mem := m2 } [] =
                some (bl, { r' with mem := m2 }) := ht5 m2 hb5
            simp only [e1, e2, e3, e4, e5]

/-- `inflate_block_fixed_huffman_code` is prefix-stable. -/
theorem ps_inflate_block_fixed (fuel : Nat) (out : List Nat) :
    PrefixStable (fun r => inflate_block_fixed_huffman_code fuel r out) :=
  ps_inflate_block fixed_literal_tree fixed_distance_tree fuel out

/-- `inflate_block_dynamic_huffman_code` is prefix-stable. -/
theorem ps_inflate_block_dynamic (fuel : Nat) (out : List Nat) :
    PrefixStable (fun r => inflate_block_dynamic_huffman_code fuel r out) := by
  intro r x r' h
  have h' : inflate_block_dynamic_huffman_code fuel r out = some (x, r') := h
  unfold inflate_block_dynamic_huffman_code at h'
  cases hg : preprocessing fuel r with
  | none => rw [hg] at h'; exact absurd h' (by simp)
  | some q =>
    obtain ⟨⟨lt, dt⟩, r1⟩ := q
    rw [hg] at h'
    have h2 : inflate_block lt dt fuel r1 out = some (x, r') := h'
    obtain ⟨hm1, hp1, ht1⟩ := ps_preprocessing fuel r _ _ hg
    obtain ⟨hm2, hp2, ht2⟩ := ps_inflate_block lt dt fuel out r1 _ _ h2
    refine ⟨hm2.trans hm1, hp1.trans hp2, ?_⟩
    intro m2 hagree
    have ha1 : List.take r1.byte_pos r.mem = List.take r1.byte_pos m2 :=
      take_mono_eq hp2 hagree
    have hb2 : List.take r'.byte_pos r1.mem = List.take r'.byte_pos m2 := by
      rw [hm1]; exact hagree
    show inflate_block_dynamic_huffman_code fuel { r with mem := m2 } out = _
    unfold inflate_block_dynamic_huffman_code
    have e1 : preprocessing fuel { r with mem := m2 } =
        some ((lt, dt), { r1 with mem := m2 }) := ht1 m2 ha1
    rw [e1]
    exact ht2 m2 hb2

/-- `inflateStep` is prefix-stable. -/
theorem ps_inflateStep (fuel BTYPE : Nat) (out : List Nat) :
    PrefixStable (fun r => inflateStep fuel BTYPE r out) := by
  intro r x r' h
  have h' : inflateStep fuel BTYPE r out = some (x, r') := h
  unfold inflateStep at h'
  by_cases h0 : BTYPE = 0
  · rw [if_pos h0] at h'
    obtain ⟨hm, hp, ht⟩ := ps_inflate_block_no_compression out r _ _ h'
    refine ⟨hm, hp, fun m2 hagree => ?_⟩
    show inflateStep fuel BTYPE { r with mem := m2 } out = _
    unfold inflateStep
    rw [if_pos h0]
    exact ht m2 hagree
  · rw [if_neg h0] at h'
    by_cases h1 : BTYPE = 1
    · rw [if_pos h1] at h'
      obtain ⟨hm, hp, ht⟩ := ps_inflate_block_fixed fuel out r _ _ h'
      refine ⟨hm, hp, fun m2 hagree => ?_⟩
      show inflateStep fuel BTYPE { r with mem := m2 } out = _
      unfold inflateStep
      rw [if_neg h0, if_pos h1]
      exact ht m2 hagree
    · rw [if_neg h1] at h'
      by_cases h2 : BTYPE = 2
      · rw [if_pos h2] at h'
        obtain ⟨hm, hp, ht⟩ := ps_inflate_block_dynamic fuel out r _ _ h'
        refine ⟨hm, hp, fun m2 hagree => ?_⟩
        show inflateStep fuel BTYPE { r with mem := m2 } out = _
        unfold inflateStep
        rw [if_neg h0, if_neg h1, if_pos h2]
        exact ht m2 hagree
      · rw [if_neg h2] at h'
        exact absurd h' (by simp)

/-- The block loop of `inflate` is prefix-stable. -/
theorem ps_inflateLoop :
    ∀ (fuel : Nat) (out : List Nat),
      PrefixStable (fun r => inflateLoop fuel r out)
  | 0, out => by
    intro r x r' h
    exact absurd h (by simp [inflateLoop])
  | fuel+1, out => by
    intro r x r' h
    have hdef : ∀ rr, inflateLoop (fuel+1) rr out =
        match read_bit rr with
        | none => none
        | some (BFINAL, r1) =>
          match read_bits r1 2 with
          | none => none
          | some (BTYPE, r2) =>
            match inflateStep fuel BTYPE r2 out with
            | none => none
            | some (out1, r3) =>
              if BFINAL = 1 then some (out1, r3)
              else inflateLoop fuel r3 out1 :=
      fun _ => rfl
    have h' : inflateLoop (fuel+1) r out = some (x, r') := h
    rw [hdef] at h'
    cases hg1 : read_bit r with
    | none => rw [hg1] at h'; exact absurd h' (by simp)
    | some q1 =>
      obtain ⟨BFINAL, r1⟩ := q1
      rw [hg1] at h'
      have hA : (match read_bits r1 2 with
          | none => none
          | some (BTYPE, r2) =>
            match inflateStep fuel BTYPE r2 out with
            | none => none
            | some (out1, r3) =>
              if BFINAL = 1 then some (out1, r3)
              else inflateLoop fuel r3 out1) = some (x, r') := h'
      cases hg2 : read_bits r1 2 with
      | none => rw [hg2] at hA; exact absurd hA (by simp)
      | some q2 =>
        obtain ⟨BTYPE, r2⟩ := q2
        rw [hg2] at hA
        have hB : (match inflateStep fuel BTYPE r2 out with
            | none => none
            | some (out1, r3) =>
              if BFINAL = 1 then some (out1, r3)
              else inflateLoop fuel r3 out1) = some (x, r') := hA
        cases hg3 : inflateStep fuel BTYPE r2 out with
        | none => rw [hg3] at hB; exact absurd hB (by simp)
        | some q3 =>
          obtain ⟨out1, r3⟩ := q3
          rw [hg3] at hB
          have hC : (if BFINAL = 1 then some (out1, r3)
              else inflateLoop fuel r3 out1) = some (x, r') := hB
          obtain ⟨hm1, hp1, ht1⟩ := ps_read_bit r _ _ hg1
          obtain ⟨hm2, hp2, ht2⟩ := ps_read_bits 2 r1 _ _ hg2
          obtain ⟨hm3, hp3, ht3⟩ := ps_inflateStep fuel BTYPE out r2 _ _ hg3
          by_cases hfin : BFINAL = 1
          · rw [if_pos hfin] at hC
            cases hC
            refine ⟨hm3.trans (hm2.trans hm1),
              hp1.trans (hp2.trans hp3), ?_⟩
            intro m2 hagree
            have ha2 : List.take r2.byte_pos r.mem = List.take r2.byte_pos m2 :=
              take_mono_eq hp3 hagree
            have ha1 : List.take r1.byte_pos r.mem = List.take r1.byte_pos m2 :=
              take_mono_eq hp2 ha2
            have hb2 : List.take r2.byte_pos r1.mem = List.take r2.byte_pos m2 := by
              rw [hm1]; exact ha2
            have hb3 : List.take r'.byte_pos r2.mem = List.take r'.byte_pos m2 := by
              rw [hm2, hm1]; exact hagree
            show inflateLoop (fuel+1) { r with mem := m2 } out = _
            rw [hdef]
            have e1 : read_bit { r with mem := m2 } =
                some (BFINAL, { r1 with mem := m2 }) := ht1 m2 ha1
            have e2 : read_bits { r1 with mem := m2 } 2 =
                some (BTYPE, { r2 with mem := m2 }) := ht2 m2 hb2
            have e3 : inflateStep fuel BTYPE { r2 with mem := m2 } out =
                some (x, { r' with mem := m2 }) := ht3 m2 hb3
            simp only [e1, e2, e3]
            rw [if_pos hfin]
          · rw [if_neg hfin] at hC
            obtain ⟨hm4, hp4, ht4⟩ := ps_inflateLoop fuel out1 r3 _ _ hC
            refine ⟨hm4.trans (hm3.trans (hm2.trans hm1)),
              hp1.trans (hp2.trans (hp3.trans hp4)), ?_⟩
            intro m2 hagree
            have ha3 : List.take r3.byte_pos r.mem = List.take r3.byte_pos m2 :=
              take_mono_eq hp4 hagree
            have ha2 : List.take r2.byte_pos r.mem = List.take r2.byte_pos m2 :=
              take_mono_eq hp3 ha3
            have ha1 : List.take r1.byte_pos r.mem = List.take r1.byte_pos m2 :=
              take_mono_eq hp2 ha2
            have hb2 : List.take r2.byte_pos r1.mem = List.take r2.byte_pos m2 := by
              rw [hm1]; exact ha2
            have hb3 : List.take r3.byte_pos r2.mem = List.take r3.byte_pos m2 := by
              rw [hm2, hm1]; exact ha3
            have hb4 : List.take r'.byte_pos r3.mem = List.take r'.byte_pos m2 := by
              rw [hm3, hm2, hm1]; exact hagree
            show inflateLoop (fuel+1) { r with mem := m2 } out = _
            rw [hdef]
            have e1 : read_bit { r with mem := m2 } =
                some (BFINAL, { r1 with mem := m2 }) := ht1 m2 ha1
            have e2 : read_bits { r1 with mem := m2 } 2 =
                some (BTYPE, { r2 with mem := m2 }) := ht2 m2 hb2
            have e3 : inflateStep fuel BTYPE { r2 with mem := m2 } out =
                some (out1, { r3 with mem := m2 }) := ht3 m2 hb3
            simp only [e1, e2, e3]
            rw [if_neg hfin]
            exact ht4 m2 hb4

/-- `inflate` is prefix-stable. -/
theorem ps_inflate (fuel : Nat) : PrefixStable (inflate fuel) :=
  ps_inflateLoop fuel []

/-- `decompressCore` is prefix-stable: the whole zlib decode depends only
on the bytes below the final cursor position. -/
theorem ps_decompressCore (fuel : Nat) : PrefixStable (decompressCore fuel) := by
  intro r x r' h
  have h' : decompressCore fuel r = some (x, r') := h
  unfold decompressCore at h'
  cases hg1 : read_byte r with
  | none => rw [hg1] at h'; exact absurd h' (by simp)
  | some q1 =>
    obtain ⟨CMF, r1⟩ := q1
    rw [hg1] at h'
    have hA : (if CMF &&& 15 ≠ 8 then none
        else if CMF >>> 4 > 7 then none
        else
          match read_byte r1 with
          | none => none
          | some (FLG, r2) =>
            if (CMF * 256 + FLG) % 31 ≠ 0 then none
            else if (FLG >>> 5) &&& 1 ≠ 0 then none
            else
              match inflate fuel r2 with
              | none => none
              | some (out, r3) =>
                match read_bytes r3 4 with
                | none => none
                | some (_adler, r4) => some (out, r4)) = some (x, r') := h'
    by_cases hcm : CMF &&& 15 ≠ 8
    · rw [if_pos hcm] at hA; exact absurd hA (by simp)
    · rw [if_neg hcm] at hA
      by_cases hci : CMF >>> 4 > 7
      · rw [if_pos hci] at hA; exact absurd hA (by simp)
      · rw [if_neg hci] at hA
        cases hg2 : read_byte r1 with
        | none => rw [hg2] at hA; exact absurd hA (by simp)
        | some q2 =>
          obtain ⟨FLG, r2⟩ := q2
          rw [hg2] at hA
          have hB : (if (CMF * 256 + FLG) % 31 ≠ 0 then none
              else if (FLG >>> 5) &&& 1 ≠ 0 then none
              else
                match inflate fuel r2 with
                | none => none
                | some (out, r3) =>
                  match read_bytes r3 4 with
                  | none => none
                  | some (_adler, r4) => some (out, r4)) = some (x, r') := hA
          by_cases hck : (CMF * 256 + FLG) % 31 ≠ 0
          · rw [if_pos hck] at hB; exact absurd hB (by simp)
          · rw [if_neg hck] at hB
            by_cases hfd : (FLG >>> 5) &&& 1 ≠ 0
            · rw [if_pos hfd] at hB; exact absurd hB (by simp)
            · rw [if_neg hfd] at hB
              cases hg3 : inflate fuel r2 with
              | none => rw [hg3] at hB; exact absurd hB (by simp)
              | some q3 =>
                obtain ⟨out, r3⟩ := q3
                rw [hg3] at hB
                have hC : (match read_bytes r3 4 with
                    | none => none
                    | some (_adler, r4) => some (out, r4)) = some (x, r') := hB
                rw [read_bytes_noop] at hC
                cases hC
                obtain ⟨hm1, hp1, ht1⟩ := ps_read_byte r _ _ hg1
                obtain ⟨hm2, hp2, ht2⟩ := ps_read_byte r1 _ _ hg2
                obtain ⟨hm3, hp3, ht3⟩ := ps_inflate fuel r2 _ _ hg3
                refine ⟨hm3.trans (hm2.trans hm1),
                  hp1.trans (hp2.trans hp3), ?_⟩
                intro m2 hagree
                have ha2 : List.take r2.byte_pos r.mem =
                    List.take r2.byte_pos m2 := take_mono_eq hp3 hagree
                have ha1 : List.take r1.byte_pos r.mem =
                    List.take r1.byte_pos m2 := take_mono_eq hp2 ha2
                have hb2 : List.take r2.byte_pos r1.mem =
                    List.take r2.byte_pos m2 := by
                  rw [hm1]; exact ha2
                have hb3 : List.take r'.byte_pos r2.mem =
                    List.take r'.byte_pos m2 := by
                  rw [hm2, hm1]; exact hagree
                show decompressCore fuel { r with mem := m2 } = _
                unfold decompressCore
                have e1 : read_byte { r with mem := m2 } =
                    some (CMF, { r1 with mem := m2 }) := ht1 m2 ha1
                have e2 : read_byte { r1 with mem := m2 } =
                    some (FLG, { r2 with mem := m2 }) := ht2 m2 hb2
                have e3 : inflate fuel { r2 with mem := m2 } =
                    some (x, { r' with mem := m2 }) := ht3 m2 hb3
                simp only [e1, e2, e3, read_bytes_noop]
                rw [if_neg hcm, if_neg hci, if_neg hck, if_neg hfd]

end Zlib

/-- C9: `decompress` consumes the trailing 4-byte Adler-32 field without
verifying it: if `decompressCore` succeeds on `i1` with final reader
position `rfin` (so the checksum field is the 4 bytes at positions
`rfin.byte_pos .. rfin.byte_pos+3`), then for any equal-length input `i2`
that agrees with `i1` everywhere except possibly inside that 4-byte field,
`decompress` succeeds on `i2` as well and returns the same bytes. -/
theorem c9_adler_checksum_ignored (fuel : Nat) (i1 i2 out : List Nat)
    (rfin : Zlib.BitReader)
    (hrun : Zlib.decompressCore fuel (Zlib.BitReader.init i1) = some (out, rfin))
    (hlen : i2.length = i1.length)
    (hagree : ∀ j, (j < rfin.byte_pos ∨ rfin.byte_pos + 4 ≤ j) →
      i1[j]? = i2[j]?) :
    Zlib.decompress fuel i1 = Zlib.bytesOf out ∧
    Zlib.decompress fuel i2 = Zlib.decompress fuel i1 := by
  obtain ⟨hm, hp, ht⟩ :=
    Zlib.ps_decompressCore fuel (Zlib.BitReader.init i1) out rfin hrun
  have htake : List.take rfin.byte_pos i1 = List.take rfin.byte_pos i2 := by
    apply List.ext_getElem?
    intro j
    rw [List.getElem?_take, List.getElem?_take]
    by_cases hj : j < rfin.byte_pos
    · rw [if_pos hj, if_pos hj]
      exact hagree j (Or.inl hj)
    · rw [if_neg hj, if_neg hj]
  have h2 : Zlib.decompressCore fuel (Zlib.BitReader.init i2) =
      some (out, { rfin with mem := i2 }) := ht i2 htake
  constructor
  · unfold Zlib.decompress
    rw [hrun]
  · unfold Zlib.decompress
    rw [hrun, h2]

/-- Witness for C9: the 12-byte fixture stream and the same stream with its
Adler-32 trailer replaced by DE AD BE EF decompress to the same bytes. -/
theorem c9_adler_checksum_ignored_witness :
    Zlib.decompress 100 [0x08, 0xD7, 0x63, 0xF8, 0xCF, 0xC0,
        0x00, 0x00, 0x03, 0x01, 0x01, 0x00] =
      Zlib.bytesOf [0, 255, 0, 0] ∧
    Zlib.decompress 100 [0x08, 0xD7, 0x63, 0xF8, 0xCF, 0xC0,
        0x00, 0x00, 0xDE, 0xAD, 0xBE, 0xEF] =
      Zlib.decompress 100 [0x08, 0xD7, 0x63, 0xF8, 0xCF, 0xC0,
        0x00, 0x00, 0x03, 0x01, 0x01, 0x00] :=
  c9_adler_checksum_ignored 100
    [0x08, 0xD7, 0x63, 0xF8, 0xCF, 0xC0, 0x00, 0x00, 0x03, 0x01, 0x01, 0x00]
    [0x08, 0xD7, 0x63, 0xF8, 0xCF, 0xC0, 0x00, 0x00, 0xDE, 0xAD, 0xBE, 0xEF]
    [0, 255, 0, 0]
    ⟨[0x08, 0xD7, 0x63, 0xF8, 0xCF, 0xC0, 0x00, 0x00, 0x03, 0x01, 0x01, 0x00],
      8, 0, 5⟩
    (by rfl)
    (by rfl)
    (by
      intro j hj
      by_cases hlt : j < 12
      · interval_cases j <;> first | rfl | exact absurd hj (by decide)
      · have h12 : (12:Nat) ≤ j := Nat.le_of_not_lt hlt
        have e1 : ([0x08, 0xD7, 0x63, 0xF8, 0xCF, 0xC0, 0x00, 0x00,
            0x03, 0x01, 0x01, 0x00] : List Nat)[j]? = none :=
          List.getElem?_eq_none (by simpa using h12)
        have e2 : ([0x08, 0xD7, 0x63, 0xF8, 0xCF, 0xC0, 0x00, 0x00,
            0xDE, 0xAD, 0xBE, 0xEF] : List Nat)[j]? = none :=
          List.getElem?_eq_none (by simpa using h12)
        rw [e1, e2])
